import Mathlib

/-!
Verification of the audit-scraper repository.

Strings are modelled as lists of characters (`Str := List Char`); machine
bytes as natural numbers below 256.  Every definition below is translated
from the Python source (`src/audit_scraper/models.py`, `parser.py`,
`scraper.py`); the doc comment of each definition names the source function
it embeds.
-/

set_option maxRecDepth 4000

abbrev Str := List Char

/-- The character class `[A-Za-z0-9._-]` used by the sanitizer's regex
`invalid_chars = r"[^A-Za-z0-9._-]+"` in `models.py`, by code point:
`A`-`Z` is 65-90, `a`-`z` is 97-122, `0`-`9` is 48-57, `.` is 46, `_` is 95
and `-` is 45. -/
def isSafeChar (c : Char) : Bool :=
  let n := c.toNat
  (65 ≤ n && n ≤ 90) || (97 ≤ n && n ≤ 122) || (48 ≤ n && n ≤ 57) ||
    n = 46 || n = 95 || n = 45

/-- `_SANITIZE_TRANSLATION` from `models.py`: `re.sub(r"[^A-Za-z0-9._-]+", "_", value)`.
Each maximal run of characters outside the class is replaced by a single
underscore (the single `_` is emitted at the last character of the run). -/
def sanitizeTranslation : Str → Str
  | [] => []
  | c :: cs =>
    if isSafeChar c then c :: sanitizeTranslation cs
    else
      match cs with
      | [] => ['_']
      | d :: _ => if isSafeChar d then '_' :: sanitizeTranslation cs
                  else sanitizeTranslation cs

/-- `re.sub(r"_+", "_", sanitized)` from `sanitize_filename`: every maximal
run of underscores is collapsed to a single underscore (keeping the last). -/
def collapseUnderscores : Str → Str
  | [] => []
  | c :: cs =>
    if c = '_' && cs.head? = some '_' then collapseUnderscores cs
    else c :: collapseUnderscores cs

/-- `re.sub(r"_+(\.)", r"\1", sanitized)` from `sanitize_filename`: a run of
underscores immediately followed by a dot is deleted (the dot is kept).  An
underscore is dropped exactly when the first non-underscore character after
it is a dot. -/
def stripUnderscoreBeforeDot : Str → Str
  | [] => []
  | c :: cs =>
    if c = '_' && (cs.dropWhile (fun d => d = '_')).head? = some '.' then
      stripUnderscoreBeforeDot cs
    else c :: stripUnderscoreBeforeDot cs

/-- The character set of Python's `strip("._ ")` / `rstrip("._ ")` calls in
`models.py`. -/
def isStripChar (c : Char) : Bool := c = '.' || c = '_' || c = ' '

/-- Python `s.lstrip("._ ")`. -/
def lstripChars (s : Str) : Str := s.dropWhile isStripChar

/-- Python `s.rstrip("._ ")`. -/
def rstripChars (s : Str) : Str := (s.reverse.dropWhile isStripChar).reverse

/-- Python `s.strip("._ ")`. -/
def stripChars (s : Str) : Str := rstripChars (lstripChars s)

/-- UTF-8 encoding of a single character (Python `str.encode("utf-8")`,
one code point). -/
def utf8EncodeChar (c : Char) : List Nat :=
  let n := c.toNat
  if n < 0x80 then [n]
  else if n < 0x800 then [0xC0 + n / 64, 0x80 + n % 64]
  else if n < 0x10000 then [0xE0 + n / 4096, 0x80 + n / 64 % 64, 0x80 + n % 64]
  else [0xF0 + n / 262144, 0x80 + n / 4096 % 64, 0x80 + n / 64 % 64, 0x80 + n % 64]

/-- Python `s.encode("utf-8")`: the byte string of a text string. -/
def utf8Encode (s : Str) : List Nat := s.flatMap utf8EncodeChar

/-- Is `b` a UTF-8 continuation byte (`0x80 ≤ b < 0xC0`)? -/
def isContByte (b : Nat) : Bool := 0x80 ≤ b && b < 0xC0

/-- One-pass UTF-8 decoding loop with `"ignore"` error handling.  `acc` is
the code point accumulated so far for a pending multi-byte sequence and `k`
the number of continuation bytes still expected (`k = 0`: no pending
sequence).  An invalid continuation byte aborts the pending sequence
(dropping it, as Python's `"ignore"` handler does) and is re-examined as a
fresh lead byte; an incomplete sequence at the end of input is dropped. -/
def utf8DecodeLoop (acc k : Nat) : List Nat → Str
  | [] => []
  | b :: bs =>
    if k ≠ 0 && isContByte b then
      if k = 1 then Char.ofNat (acc * 64 + (b - 0x80)) :: utf8DecodeLoop 0 0 bs
      else utf8DecodeLoop (acc * 64 + (b - 0x80)) (k - 1) bs
    else
      if b < 0x80 then Char.ofNat b :: utf8DecodeLoop 0 0 bs
      else if b < 0xC2 then utf8DecodeLoop 0 0 bs
      else if b < 0xE0 then utf8DecodeLoop (b - 0xC0) 1 bs
      else if b < 0xF0 then utf8DecodeLoop (b - 0xE0) 2 bs
      else if b < 0xF5 then utf8DecodeLoop (b - 0xF0) 3 bs
      else utf8DecodeLoop 0 0 bs

/-- Python `bytes.decode("utf-8", "ignore")`: decodes a byte string,
dropping malformed or incomplete sequences instead of raising. -/
def utf8DecodeIgnore (bs : List Nat) : Str := utf8DecodeLoop 0 0 bs

/-- Index of the last `'.'` in a string (Python `p.rfind(".")`, as used by
`os.path.splitext`), or `none` if there is no dot. -/
def lastDotIndex : Str → Option Nat
  | [] => none
  | c :: cs =>
    match lastDotIndex cs with
    | some d => some (d + 1)
    | none => if c = '.' then some 0 else none

/-- `os.path.splitext` for a path with no directory separator (the sanitizer
only ever applies it to such names): split at the last dot, unless every
character before that dot is itself a dot (leading dots never start an
extension). -/
def splitext (s : Str) : Str × Str :=
  match lastDotIndex s with
  | none => (s, [])
  | some d =>
    if (s.take d).any (fun c => !(c = '.')) then (s.take d, s.drop d)
    else (s, [])

/-- `MAX_FILENAME_BYTES` from `models.py`. -/
def MAX_FILENAME_BYTES : Nat := 200

/-- `sanitize_filename` from `models.py`: replace illegal-character runs by
`_`, collapse underscore runs, drop underscores before dots, strip `._ `
from both ends, fall back to `"report.pdf"` when empty, and enforce the
200-byte UTF-8 limit by truncating the stem's bytes (extension defaulting
to `.pdf`), decoding leniently, re-stripping, and falling back to the
`"report"` stem. -/
def sanitize_filename (name : Str) : Str :=
  let s1 := sanitizeTranslation name
  let s2 := collapseUnderscores s1
  let s3 := stripUnderscoreBeforeDot s2
  let s4 := stripChars s3
  let sanitized := if s4 = [] then ("report.pdf").toList else s4
  let encoded := utf8Encode sanitized
  if encoded.length ≤ MAX_FILENAME_BYTES then sanitized
  else
    let stemExt := splitext sanitized
    let stem := stemExt.1
    let ext := if stemExt.2 = [] then (".pdf").toList else stemExt.2
    let extBytes := utf8Encode ext
    let available := max 1 (MAX_FILENAME_BYTES - extBytes.length)
    let truncatedStemBytes := (utf8Encode stem).take available
    let t := rstripChars (utf8DecodeIgnore truncatedStemBytes)
    let truncatedStem := if t = [] then ("report").toList else t
    truncatedStem ++ ext

/-- `sanitize_directory_name` from `models.py`: illegal-character-run
replacement, strip `._ `, fallback `"Unknown-Year"`. -/
def sanitize_directory_name (name : Str) : Str :=
  let s1 := sanitizeTranslation name
  let s2 := stripChars s1
  if s2 = [] then ("Unknown-Year").toList else s2

-- Sanity checks mirroring `tests/test_parser.py::test_sanitize_helpers`.
example : sanitize_filename (" report?.pdf ").toList = ("report.pdf").toList := by decide
example : sanitize_directory_name (" /Year *").toList = ("Year").toList := by decide
example : sanitize_filename ("0003_Report with / invalid : chars.pdf").toList
    = ("0003_Report_with_invalid_chars.pdf").toList := by decide

/-! ### Helper views of `sanitize_filename`

`sanBase` is the pre-truncation pipeline of `sanitize_filename` (everything
up to the byte-length check) and `sanTruncate` its over-length branch;
`sanitize_filename` is definitionally their composition. -/

/-- The pre-truncation part of `sanitize_filename`: illegal-run replacement,
underscore collapsing, underscore-before-dot removal, strip, and the
`"report.pdf"` fallback. -/
def sanBase (name : Str) : Str :=
  let s4 := stripChars (stripUnderscoreBeforeDot (collapseUnderscores (sanitizeTranslation name)))
  if s4 = [] then ("report.pdf").toList else s4

/-- The over-length branch of `sanitize_filename`: split into stem and
extension (defaulting to `.pdf`), truncate the stem's bytes to the space
left by the extension, decode leniently, right-strip `._ `, fall back to
the `"report"` stem, and reassemble. -/
def sanTruncate (sanitized : Str) : Str :=
  let stemExt := splitext sanitized
  let stem := stemExt.1
  let ext := if stemExt.2 = [] then (".pdf").toList else stemExt.2
  let extBytes := utf8Encode ext
  let available := max 1 (MAX_FILENAME_BYTES - extBytes.length)
  let truncatedStemBytes := (utf8Encode stem).take available
  let t := rstripChars (utf8DecodeIgnore truncatedStemBytes)
  let truncatedStem := if t = [] then ("report").toList else t
  truncatedStem ++ ext

theorem sanitize_filename_eq (name : Str) :
    sanitize_filename name =
      if (utf8Encode (sanBase name)).length ≤ MAX_FILENAME_BYTES then sanBase name
      else sanTruncate (sanBase name) := rfl

/-- The extension (defaulting to `.pdf`) that the over-length branch of
`sanitize_filename` would keep for a given input. -/
def sanitizedExtension (name : Str) : Str :=
  let se := splitext (sanBase name)
  if se.2 = [] then (".pdf").toList else se.2

/-! ### Output-shape predicates -/

/-- No two adjacent characters of the string satisfy `bad`. -/
def noAdjB (bad : Char → Char → Bool) : Str → Bool
  | [] => true
  | [_] => true
  | a :: b :: t => !bad a b && noAdjB bad (b :: t)

/-- No run of two or more underscores (`re.sub(r"_+", "_", ·)` has been
applied). -/
def noDDB (s : Str) : Bool := noAdjB (fun a b => a = '_' && b = '_') s

/-- No underscore immediately before a dot (`re.sub(r"_+(\.)", r"\1", ·)`
has been applied). -/
def noUDB (s : Str) : Bool := noAdjB (fun a b => a = '_' && b = '.') s

/-- The first character, if any, is not one of `._ ` (space). -/
def headOKB (s : Str) : Bool :=
  match s.head? with
  | none => true
  | some c => !isStripChar c

/-- The last character, if any, is not one of `._ ` (space). -/
def lastOKB (s : Str) : Bool :=
  match s.getLast? with
  | none => true
  | some c => !isStripChar c

/-- Invariant satisfied by every output of `sanitize_filename`: non-empty,
only characters from `[A-Za-z0-9._-]`, no doubled underscore, no underscore
before a dot, and no leading or trailing `._ `. -/
def Fixed (y : Str) : Prop :=
  y ≠ [] ∧ y.all isSafeChar = true ∧ noDDB y = true ∧ noUDB y = true ∧
    headOKB y = true ∧ lastOKB y = true

/-! ### Character-level facts -/

theorem isSafeChar_lt128 {c : Char} (h : isSafeChar c = true) : c.toNat < 128 := by
  simp [isSafeChar] at h
  omega

theorem headOKB_iff (s : Str) :
    headOKB s = true ↔ ∀ c, s.head? = some c → isStripChar c = false := by
  unfold headOKB
  cases h : s.head? <;> simp

theorem lastOKB_iff (s : Str) :
    lastOKB s = true ↔ ∀ c, s.getLast? = some c → isStripChar c = false := by
  unfold lastOKB
  cases h : s.getLast? <;> simp

/-! ### Adjacent-pair algebra -/

theorem noAdjB_cons_iff (bad : Char → Char → Bool) (a : Char) (l : Str) :
    noAdjB bad (a :: l) = true ↔
      (∀ b, l.head? = some b → bad a b = false) ∧ noAdjB bad l = true := by
  cases l with
  | nil => simp [noAdjB]
  | cons b t =>
    simp only [noAdjB, Bool.and_eq_true, Bool.not_eq_true', List.head?_cons,
      Option.some.injEq]
    constructor
    · rintro ⟨h1, h2⟩
      exact ⟨fun b' hb => hb ▸ h1, h2⟩
    · rintro ⟨h1, h2⟩
      exact ⟨h1 b rfl, h2⟩

theorem noAdjB_append (bad : Char → Char → Bool) (l r : Str)
    (hl : noAdjB bad l = true) (hr : noAdjB bad r = true)
    (hj : ∀ a b, l.getLast? = some a → r.head? = some b → bad a b = false) :
    noAdjB bad (l ++ r) = true := by
  induction l with
  | nil => simpa using hr
  | cons a l ih =>
    rw [noAdjB_cons_iff] at hl
    rw [List.cons_append, noAdjB_cons_iff]
    cases l with
    | nil =>
      refine ⟨?_, by simpa using hr⟩
      intro b hb
      exact hj a b rfl hb
    | cons c l' =>
      refine ⟨?_, ih hl.2 ?_⟩
      · intro b hb
        simp only [List.cons_append, List.head?_cons, Option.some.injEq] at hb
        exact hl.1 b (by simp [hb])
      · intro a' b ha' hb
        refine hj a' b ?_ hb
        rw [List.getLast?_cons_cons]
        exact ha'

theorem noAdjB_append_left (bad : Char → Char → Bool) (l r : Str)
    (h : noAdjB bad (l ++ r) = true) : noAdjB bad l = true := by
  induction l with
  | nil => rfl
  | cons a l ih =>
    rw [List.cons_append, noAdjB_cons_iff] at h
    rw [noAdjB_cons_iff]
    refine ⟨?_, ih h.2⟩
    intro b hb
    refine h.1 b ?_
    cases l with
    | nil => simp at hb
    | cons c l' => simpa using hb

theorem noAdjB_append_right (bad : Char → Char → Bool) (l r : Str)
    (h : noAdjB bad (l ++ r) = true) : noAdjB bad r = true := by
  induction l with
  | nil => simpa using h
  | cons a l ih =>
    rw [List.cons_append, noAdjB_cons_iff] at h
    exact ih h.2

/-! ### Strip lemmas -/

theorem lstrip_decomp (s : Str) :
    s = s.takeWhile isStripChar ++ lstripChars s :=
  (List.takeWhile_append_dropWhile isStripChar s).symm

theorem rstrip_decomp (s : Str) :
    ∃ t, s = rstripChars s ++ t ∧ ∀ c ∈ t, isStripChar c = true := by
  refine ⟨(s.reverse.takeWhile isStripChar).reverse, ?_, ?_⟩
  · have h := List.takeWhile_append_dropWhile isStripChar s.reverse
    have h2 := congrArg List.reverse h
    rw [List.reverse_append, List.reverse_reverse] at h2
    exact h2.symm
  · intro c hc
    rw [List.mem_reverse] at hc
    exact List.mem_takeWhile_imp hc

theorem headOKB_lstrip (s : Str) : headOKB (lstripChars s) = true := by
  rw [headOKB_iff]
  intro c hc
  have h := List.head?_dropWhile_not isStripChar s
  rw [lstripChars] at hc
  rw [hc] at h
  simpa using h

theorem lastOKB_rstrip (s : Str) : lastOKB (rstripChars s) = true := by
  rw [lastOKB_iff]
  intro c hc
  rw [rstripChars, List.getLast?_reverse] at hc
  have h := List.head?_dropWhile_not isStripChar s.reverse
  rw [hc] at h
  simpa using h

theorem rstrip_eq_nil_iff (s : Str) :
    rstripChars s = [] ↔ ∀ c ∈ s, isStripChar c = true := by
  rw [rstripChars]
  simp [List.dropWhile_eq_nil_iff]

theorem lstrip_of_headOK {s : Str} (h : headOKB s = true) : lstripChars s = s := by
  cases s with
  | nil => rfl
  | cons c cs =>
    rw [headOKB_iff] at h
    have hc := h c rfl
    simp [lstripChars, List.dropWhile_cons, hc]

theorem rstrip_of_lastOK {s : Str} (h : lastOKB s = true) : rstripChars s = s := by
  rw [rstripChars]
  cases hs : s.reverse with
  | nil =>
    simp only [List.dropWhile_nil]
    rw [← hs, List.reverse_reverse]
  | cons c cs =>
    rw [lastOKB_iff] at h
    have hc : isStripChar c = false := by
      refine h c ?_
      have : s.reverse.head? = some c := by rw [hs]; rfl
      rwa [List.head?_reverse] at this
    rw [List.dropWhile_cons, hc]
    simp only [Bool.false_eq_true, if_false]
    rw [← hs, List.reverse_reverse]

theorem stripChars_of_OK {s : Str} (h1 : headOKB s = true) (h2 : lastOKB s = true) :
    stripChars s = s := by
  rw [stripChars, lstrip_of_headOK h1, rstrip_of_lastOK h2]

theorem head?_rstrip {s : Str} (h : rstripChars s ≠ []) :
    (rstripChars s).head? = s.head? := by
  obtain ⟨t, ht, -⟩ := rstrip_decomp s
  conv_rhs => rw [ht]
  rw [List.head?_append]
  cases hh : (rstripChars s).head? with
  | none => exact absurd (List.head?_eq_none_iff.mp hh) h
  | some c => simp [Option.or]

/-! ### Properties of the three substitution stages -/

theorem sanitizeTranslation_safe (s : Str) :
    ∀ c ∈ sanitizeTranslation s, isSafeChar c = true := by
  induction s using sanitizeTranslation.induct with
  | case1 => simp [sanitizeTranslation]
  | case2 c cs h ih =>
    intro x hx
    simp only [sanitizeTranslation, if_pos h] at hx
    rcases List.mem_cons.mp hx with hx | hx
    · exact hx ▸ h
    · exact ih x hx
  | case3 c h =>
    intro x hx
    simp only [sanitizeTranslation, if_neg h, List.mem_singleton] at hx
    subst hx; decide
  | case4 c h d tail hd ih =>
    intro x hx
    simp only [sanitizeTranslation, if_pos hd] at ih
    simp only [sanitizeTranslation, if_neg h, if_pos hd] at hx
    rcases List.mem_cons.mp hx with hx | hx
    · subst hx; decide
    · exact ih x hx
  | case5 c h d tail hd ih =>
    intro x hx
    simp only [sanitizeTranslation, if_neg hd] at ih
    simp only [sanitizeTranslation, if_neg h, if_neg hd] at hx
    exact ih x hx

theorem collapseUnderscores_sublist (s : Str) :
    List.Sublist (collapseUnderscores s) s := by
  induction s with
  | nil => exact List.Sublist.refl []
  | cons c cs ih =>
    rw [collapseUnderscores]
    by_cases h : (c = '_' && cs.head? = some '_') = true
    · rw [if_pos h]
      exact List.Sublist.cons c ih
    · rw [if_neg h]
      exact List.Sublist.cons₂ c ih

theorem stripUnderscoreBeforeDot_sublist (s : Str) :
    List.Sublist (stripUnderscoreBeforeDot s) s := by
  induction s with
  | nil => exact List.Sublist.refl []
  | cons c cs ih =>
    rw [stripUnderscoreBeforeDot]
    by_cases h : (c = '_' && ((cs.dropWhile fun d => d = '_').head? = some '.' : Bool)) = true
    · rw [if_pos h]
      exact List.Sublist.cons c ih
    · rw [if_neg h]
      exact List.Sublist.cons₂ c ih

theorem collapseUnderscores_head? (s : Str) :
    (collapseUnderscores s).head? = s.head? := by
  induction s with
  | nil => rfl
  | cons c cs ih =>
    rw [collapseUnderscores]
    by_cases h : (c = '_' && cs.head? = some '_') = true
    · rw [if_pos h, ih]
      simp only [Bool.and_eq_true, decide_eq_true_eq] at h
      rw [h.2, List.head?_cons, h.1]
    · rw [if_neg h]
      rfl

theorem noDDB_collapseUnderscores (s : Str) : noDDB (collapseUnderscores s) = true := by
  induction s with
  | nil => rfl
  | cons c cs ih =>
    rw [collapseUnderscores]
    by_cases h : (c = '_' && cs.head? = some '_') = true
    · rw [if_pos h]; exact ih
    · rw [if_neg h]
      rw [noDDB] at ih ⊢
      rw [noAdjB_cons_iff]
      refine ⟨?_, ih⟩
      intro b hb
      rw [collapseUnderscores_head?] at hb
      simp only [Bool.and_eq_true, decide_eq_true_eq, not_and] at h
      by_cases hc : c = '_'
      · by_cases hbu : b = '_'
        · exact absurd (hbu ▸ hb) (fun hh => h hc hh)
        · simp [hbu]
      · simp [hc]

theorem sUBD_head_of_ne {c : Char} (cs : Str) (h : ¬c = '_') :
    (stripUnderscoreBeforeDot (c :: cs)).head? = some c := by
  simp [stripUnderscoreBeforeDot, h]

theorem noDDB_sUBD {s : Str} (h : noDDB s = true) :
    noDDB (stripUnderscoreBeforeDot s) = true := by
  induction s with
  | nil => rfl
  | cons c cs ih =>
    rw [noDDB, noAdjB_cons_iff] at h
    rw [stripUnderscoreBeforeDot]
    by_cases hg : (c = '_' && ((cs.dropWhile fun d => d = '_').head? = some '.' : Bool)) = true
    · rw [if_pos hg]
      exact ih h.2
    · rw [if_neg hg]
      rw [noDDB, noAdjB_cons_iff]
      refine ⟨?_, ih h.2⟩
      intro b hb
      by_cases hc : c = '_'
      · cases cs with
        | nil => simp [stripUnderscoreBeforeDot] at hb
        | cons d ds =>
          have hd : ¬d = '_' := by
            intro hd
            have := h.1 d (by rfl)
            simp [hc, hd] at this
          rw [sUBD_head_of_ne ds hd] at hb
          injection hb with hb
          subst hb
          simp [hd]
      · simp [hc]

theorem noUDB_sUBD {s : Str} (h : noDDB s = true) :
    noUDB (stripUnderscoreBeforeDot s) = true := by
  induction s with
  | nil => rfl
  | cons c cs ih =>
    rw [noDDB, noAdjB_cons_iff] at h
    rw [stripUnderscoreBeforeDot]
    by_cases hg : (c = '_' && ((cs.dropWhile fun d => d = '_').head? = some '.' : Bool)) = true
    · rw [if_pos hg]
      exact ih h.2
    · rw [if_neg hg]
      rw [noUDB, noAdjB_cons_iff]
      refine ⟨?_, ih h.2⟩
      intro b hb
      by_cases hc : c = '_'
      · cases cs with
        | nil => simp [stripUnderscoreBeforeDot] at hb
        | cons d ds =>
          have hd : ¬d = '_' := by
            intro hd
            have := h.1 d (by rfl)
            simp [hc, hd] at this
          have hdot : ¬d = '.' := by
            intro hdot
            refine hg ?_
            have hdw : (d :: ds).dropWhile (fun x => x = '_') = d :: ds := by
              rw [List.dropWhile_cons]
              simp [hd]
            simp [hc, hdw, hdot]
          rw [sUBD_head_of_ne ds hd] at hb
          injection hb with hb
          subst hb
          simp [hdot]
      · simp [hc]

theorem sUBD_guard_false {c : Char} {cs : Str} (h : noUDB (c :: cs) = true) (hc : c = '_') :
    ¬((cs.dropWhile fun d => d = '_').head? = some '.') := by
  induction cs with
  | nil => simp
  | cons d ds ih =>
    rw [noUDB, noAdjB_cons_iff] at h
    by_cases hd : d = '_'
    · rw [List.dropWhile_cons, if_pos (by simp [hd])]
      refine ih ?_
      have h2 := h.2
      rw [noAdjB_cons_iff] at h2
      rw [noUDB, noAdjB_cons_iff]
      subst hc hd
      exact h2
    · rw [List.dropWhile_cons, if_neg (by simp [hd])]
      simp only [List.head?_cons]
      intro hdot
      injection hdot with hdot
      have := h.1 d rfl
      simp [hc, hdot] at this

theorem sUBD_of_noUD {s : Str} (h : noUDB s = true) :
    stripUnderscoreBeforeDot s = s := by
  induction s with
  | nil => rfl
  | cons c cs ih =>
    rw [stripUnderscoreBeforeDot]
    have hrec : noUDB cs = true := by
      rw [noUDB, noAdjB_cons_iff] at h
      exact h.2
    by_cases hc : c = '_'
    · have := sUBD_guard_false h hc
      rw [if_neg (by simp [this])]
      rw [ih hrec]
    · rw [if_neg (by simp [hc])]
      rw [ih hrec]

theorem collapse_of_noDD {s : Str} (h : noDDB s = true) :
    collapseUnderscores s = s := by
  induction s with
  | nil => rfl
  | cons c cs ih =>
    rw [noDDB, noAdjB_cons_iff] at h
    rw [collapseUnderscores]
    have hg : ¬(c = '_' && cs.head? = some '_') = true := by
      intro hg
      simp only [Bool.and_eq_true, decide_eq_true_eq] at hg
      have := h.1 '_' hg.2
      simp [hg.1] at this
    rw [if_neg hg, ih h.2]

theorem sanitizeTranslation_of_safe {s : Str} (h : ∀ c ∈ s, isSafeChar c = true) :
    sanitizeTranslation s = s := by
  induction s with
  | nil => rfl
  | cons c cs ih =>
    have hc := h c (List.mem_cons_self c cs)
    simp only [sanitizeTranslation, if_pos hc]
    rw [ih (fun x hx => h x (List.mem_cons_of_mem c hx))]

/-! ### ASCII facts about UTF-8 encoding and decoding -/

theorem utf8EncodeChar_ascii {c : Char} (h : c.toNat < 128) :
    utf8EncodeChar c = [c.toNat] := by
  simp [utf8EncodeChar, h]

theorem utf8Encode_ascii {s : Str} (h : ∀ c ∈ s, c.toNat < 128) :
    utf8Encode s = s.map Char.toNat := by
  induction s with
  | nil => rfl
  | cons c cs ih =>
    have hc := h c (List.mem_cons_self c cs)
    have ih' := ih (fun x hx => h x (List.mem_cons_of_mem c hx))
    rw [utf8Encode] at ih' ⊢
    rw [List.flatMap_cons, utf8EncodeChar_ascii hc, ih', List.map_cons]
    rfl

theorem utf8Encode_length_ascii {s : Str} (h : ∀ c ∈ s, c.toNat < 128) :
    (utf8Encode s).length = s.length := by
  rw [utf8Encode_ascii h, List.length_map]

theorem utf8DecodeLoop_ascii {bs : List Nat} (h : ∀ b ∈ bs, b < 128) :
    utf8DecodeLoop 0 0 bs = bs.map Char.ofNat := by
  induction bs with
  | nil => rfl
  | cons b bs ih =>
    have hb := h b (List.mem_cons_self b bs)
    have ih' := ih (fun x hx => h x (List.mem_cons_of_mem b hx))
    rw [utf8DecodeLoop]
    rw [if_neg (by simp), if_pos hb, ih', List.map_cons]

theorem utf8DecodeIgnore_encode_ascii {s : Str} (h : ∀ c ∈ s, c.toNat < 128) :
    utf8DecodeIgnore (utf8Encode s) = s := by
  rw [utf8DecodeIgnore, utf8Encode_ascii h]
  rw [utf8DecodeLoop_ascii (by intro b hb; obtain ⟨c, hc, rfl⟩ := List.mem_map.mp hb; exact h c hc)]
  rw [List.map_map]
  have : ∀ c ∈ s, (Char.ofNat ∘ Char.toNat) c = c := fun c _ => Char.ofNat_toNat c
  rw [List.map_congr_left this]
  simp

/-! ### splitext lemmas -/

theorem lastDotIndex_none_not_mem {s : Str} (h : lastDotIndex s = none) : '.' ∉ s := by
  induction s with
  | nil => simp
  | cons c cs ih =>
    rw [lastDotIndex] at h
    cases hcs : lastDotIndex cs with
    | some d => rw [hcs] at h; exact absurd h (by simp)
    | none =>
      rw [hcs] at h
      by_cases hc : c = '.'
      · rw [if_pos hc] at h; exact absurd h (by simp)
      · intro hm
        rcases List.mem_cons.mp hm with hm | hm
        · exact hc hm.symm
        · exact ih hcs hm

theorem lastDotIndex_spec {s : Str} {d : Nat} (h : lastDotIndex s = some d) :
    d < s.length ∧ s.drop d = '.' :: s.drop (d + 1) ∧ '.' ∉ s.drop (d + 1) := by
  induction s generalizing d with
  | nil => simp [lastDotIndex] at h
  | cons c cs ih =>
    rw [lastDotIndex] at h
    cases hcs : lastDotIndex cs with
    | some d' =>
      rw [hcs] at h
      simp only [Option.some.injEq] at h
      subst h
      obtain ⟨h1, h2, h3⟩ := ih hcs
      refine ⟨by simpa using Nat.succ_lt_succ h1, ?_, ?_⟩
      · simpa using h2
      · simpa using h3
    | none =>
      rw [hcs] at h
      by_cases hc : c = '.'
      · rw [if_pos hc] at h
        simp only [Option.some.injEq] at h
        subst h
        subst hc
        exact ⟨by simp, by simp, by simpa using lastDotIndex_none_not_mem hcs⟩
      · rw [if_neg hc] at h
        exact absurd h (by simp)

theorem lastDotIndex_append_last {r : Str} (l : Str) (h : '.' ∉ r) :
    lastDotIndex (l ++ '.' :: r) = some l.length := by
  induction l with
  | nil =>
    rw [List.nil_append, lastDotIndex]
    have : lastDotIndex r = none := by
      cases hr : lastDotIndex r with
      | none => rfl
      | some d =>
        obtain ⟨h1, h2, -⟩ := lastDotIndex_spec hr
        have hm : '.' ∈ r.drop d := by
          rw [h2]
          exact List.mem_cons_self _ _
        exact absurd (List.mem_of_mem_drop hm) h
    rw [this]
    simp
  | cons c l ih =>
    rw [List.cons_append, lastDotIndex, ih]
    simp

theorem splitext_append (s : Str) : (splitext s).1 ++ (splitext s).2 = s := by
  cases h : lastDotIndex s with
  | none => simp [splitext, h]
  | some d =>
    by_cases ha : (s.take d).any (fun c => !(c = '.')) = true
    · simp only [splitext, h, if_pos ha]
      exact List.take_append_drop d s
    · simp only [splitext, h, if_neg ha]
      simp

theorem splitext_ext_struct (s : Str) :
    (splitext s).2 = [] ∨ ∃ e', (splitext s).2 = '.' :: e' ∧ '.' ∉ e' := by
  cases h : lastDotIndex s with
  | none => left; simp [splitext, h]
  | some d =>
    by_cases ha : (s.take d).any (fun c => !(c = '.')) = true
    · simp only [splitext, h, if_pos ha]
      right
      obtain ⟨-, h2, h3⟩ := lastDotIndex_spec h
      exact ⟨s.drop (d + 1), by simpa using h2, h3⟩
    · simp only [splitext, h, if_neg ha]
      left; trivial

theorem splitext_stem_head {s : Str} (h : (splitext s).2 ≠ []) :
    (splitext s).1 ≠ [] ∧ (splitext s).1.head? = s.head? := by
  cases hd : lastDotIndex s with
  | none => simp only [splitext, hd] at h; simp at h
  | some d =>
    by_cases ha : (s.take d).any (fun c => !(c = '.')) = true
    · simp only [splitext, hd, if_pos ha] at h ⊢
      obtain ⟨x, hx, -⟩ := List.any_eq_true.mp ha
      cases s with
      | nil => simp at hx
      | cons c cs =>
        cases d with
        | zero => simp at hx
        | succ d' => exact ⟨by simp, by simp⟩
    · simp only [splitext, hd, if_neg ha] at h
      simp at h

theorem splitext_of_append (t e' : Str) (he : '.' ∉ e') (x : Char) (hx : x ∈ t)
    (hxd : ¬x = '.') : splitext (t ++ '.' :: e') = (t, '.' :: e') := by
  have hl := lastDotIndex_append_last t he
  simp only [splitext, hl]
  rw [List.take_left]
  rw [if_pos (List.any_eq_true.mpr ⟨x, hx, by simpa using hxd⟩)]
  rw [List.drop_left]

/-! ### The sanitizer invariant -/

theorem stripChars_subset (s : Str) : ∀ c ∈ stripChars s, c ∈ s := by
  intro c hc
  rw [stripChars] at hc
  obtain ⟨t, ht, -⟩ := rstrip_decomp (lstripChars s)
  have h1 : c ∈ lstripChars s := by
    rw [ht]
    exact List.mem_append_left t hc
  rw [lstrip_decomp s]
  exact List.mem_append_right _ h1

theorem noAdjB_stripChars (bad : Char → Char → Bool) (s : Str)
    (h : noAdjB bad s = true) : noAdjB bad (stripChars s) = true := by
  have h1 : noAdjB bad (lstripChars s) = true := by
    refine noAdjB_append_right bad (s.takeWhile isStripChar) (lstripChars s) ?_
    rw [← lstrip_decomp s]
    exact h
  obtain ⟨t, ht, -⟩ := rstrip_decomp (lstripChars s)
  rw [stripChars]
  refine noAdjB_append_left bad _ t ?_
  rw [← ht]
  exact h1

theorem headOKB_stripChars (s : Str) : headOKB (stripChars s) = true := by
  by_cases h : stripChars s = []
  · rw [h]; rfl
  · rw [headOKB_iff]
    intro c hc
    rw [stripChars, head?_rstrip (by rwa [stripChars] at h)] at hc
    exact (headOKB_iff _).mp (headOKB_lstrip s) c hc

theorem lastOKB_stripChars (s : Str) : lastOKB (stripChars s) = true :=
  lastOKB_rstrip (lstripChars s)

theorem fixed_sanBase (x : Str) : Fixed (sanBase x) := by
  rw [sanBase]
  by_cases h4 : stripChars (stripUnderscoreBeforeDot (collapseUnderscores (sanitizeTranslation x))) = []
  · rw [if_pos h4]
    unfold Fixed
    refine ⟨by decide, by decide, by decide, by decide, by decide, by decide⟩
  · rw [if_neg h4]
    have hDD2 : noDDB (collapseUnderscores (sanitizeTranslation x)) = true :=
      noDDB_collapseUnderscores _
    have hsafe3 : ∀ c ∈ stripUnderscoreBeforeDot (collapseUnderscores (sanitizeTranslation x)),
        isSafeChar c = true := by
      intro c hc
      refine sanitizeTranslation_safe x c ?_
      exact List.Sublist.mem (List.Sublist.mem hc (stripUnderscoreBeforeDot_sublist _))
        (collapseUnderscores_sublist _)
    refine ⟨h4, ?_, ?_, ?_, ?_, ?_⟩
    · exact List.all_eq_true.mpr fun c hc => hsafe3 c (stripChars_subset _ c hc)
    · exact noAdjB_stripChars _ _ (noDDB_sUBD hDD2)
    · exact noAdjB_stripChars _ _ (noUDB_sUBD hDD2)
    · exact headOKB_stripChars _
    · exact lastOKB_stripChars _

theorem fixed_ascii {y : Str} (h : y.all isSafeChar = true) : ∀ c ∈ y, c.toNat < 128 :=
  fun c hc => isSafeChar_lt128 (List.all_eq_true.mp h c hc)

/-! ### The over-length branch -/

theorem noAdjB_take (bad : Char → Char → Bool) (n : Nat) (l : Str)
    (h : noAdjB bad l = true) : noAdjB bad (l.take n) = true := by
  refine noAdjB_append_left bad _ (l.drop n) ?_
  rw [List.take_append_drop]
  exact h

theorem noAdjB_rstrip (bad : Char → Char → Bool) (l : Str)
    (h : noAdjB bad l = true) : noAdjB bad (rstripChars l) = true := by
  obtain ⟨t, ht, -⟩ := rstrip_decomp l
  refine noAdjB_append_left bad _ t ?_
  rw [← ht]
  exact h

theorem rstrip_take_spec {stem : Str} (n : Nat) (hn : 1 ≤ n) (hne : stem ≠ [])
    (hhead : ∀ c, stem.head? = some c → isStripChar c = false) :
    rstripChars (stem.take n) ≠ [] ∧
      (rstripChars (stem.take n)).head? = stem.head? ∧
      (rstripChars (stem.take n)).length ≤ n ∧
      ∃ tail, stem.take n = rstripChars (stem.take n) ++ tail := by
  obtain ⟨c0, stem', rfl⟩ : ∃ c0 stem', stem = c0 :: stem' := by
    cases stem with
    | nil => exact absurd rfl hne
    | cons a as => exact ⟨a, as, rfl⟩
  obtain ⟨m, rfl⟩ : ∃ m, n = m + 1 := ⟨n - 1, by omega⟩
  have hc0 : isStripChar c0 = false := hhead c0 rfl
  have htake : (c0 :: stem').take (m + 1) = c0 :: stem'.take m := List.take_succ_cons
  have htne : rstripChars ((c0 :: stem').take (m + 1)) ≠ [] := by
    intro ht
    rw [rstrip_eq_nil_iff] at ht
    have := ht c0 (by rw [htake]; exact List.mem_cons_self c0 _)
    rw [hc0] at this
    exact Bool.false_ne_true this
  refine ⟨htne, ?_, ?_, ?_⟩
  · rw [head?_rstrip htne, htake]
    rfl
  · obtain ⟨tail, htail, -⟩ := rstrip_decomp ((c0 :: stem').take (m + 1))
    have hlen := congrArg List.length htail
    rw [List.length_append] at hlen
    have hub : ((c0 :: stem').take (m + 1)).length ≤ m + 1 := by
      rw [List.length_take]
      exact Nat.min_le_left _ _
    omega
  · obtain ⟨tail, htail, -⟩ := rstrip_decomp ((c0 :: stem').take (m + 1))
    exact ⟨tail, htail⟩

theorem fixed_append_ext {t e' : Str} (htne : t ≠ [])
    (htall : ∀ c ∈ t, isSafeChar c = true) (htDD : noDDB t = true) (htUD : noUDB t = true)
    (hthead : ∀ c, t.head? = some c → isStripChar c = false)
    (htlast : lastOKB t = true)
    (heall : ∀ c ∈ ('.' :: e'), isSafeChar c = true)
    (heDD : noDDB ('.' :: e') = true) (heUD : noUDB ('.' :: e') = true)
    (helast : lastOKB ('.' :: e') = true) :
    Fixed (t ++ '.' :: e') := by
  have hlastne : ∀ a, t.getLast? = some a → ¬a = '_' := by
    intro a ha hau
    have := (lastOKB_iff t).mp htlast a ha
    rw [hau] at this
    exact absurd this (by decide)
  refine ⟨by simp, ?_, ?_, ?_, ?_, ?_⟩
  · refine List.all_eq_true.mpr ?_
    intro c hc
    rcases List.mem_append.mp hc with h | h
    · exact htall c h
    · exact heall c h
  · refine noAdjB_append _ t _ htDD heDD ?_
    intro a b ha hb
    rw [List.head?_cons] at hb
    injection hb with hb
    subst hb
    simp
  · refine noAdjB_append _ t _ htUD heUD ?_
    intro a b ha hb
    rw [List.head?_cons] at hb
    injection hb with hb
    subst hb
    simp [hlastne a ha]
  · rw [headOKB_iff]
    intro c hc
    rw [List.head?_append] at hc
    cases hht : t.head? with
    | none => exact absurd (List.head?_eq_none_iff.mp hht) htne
    | some c0 =>
      rw [hht] at hc
      simp only [Option.or] at hc
      injection hc with hc
      subst hc
      exact hthead c0 hht
  · rw [lastOKB_iff]
    intro c hc
    rw [List.getLast?_append_of_ne_nil t (by simp)] at hc
    exact (lastOKB_iff _).mp helast c hc

theorem sanTruncate_assemble {s stem e' : Str}
    (h1 : (splitext s).1 = stem)
    (h2 : (if (splitext s).2 = [] then (".pdf").toList else (splitext s).2) = '.' :: e')
    (hheadOK : headOKB s = true)
    (hstemne : stem ≠ []) (hstemhead : stem.head? = s.head?)
    (hstemall : ∀ c ∈ stem, isSafeChar c = true)
    (hstemDD : noDDB stem = true) (hstemUD : noUDB stem = true)
    (heall : ∀ c ∈ ('.' :: e'), isSafeChar c = true)
    (heDD : noDDB ('.' :: e') = true) (heUD : noUDB ('.' :: e') = true)
    (helast : lastOKB ('.' :: e') = true) :
    ∃ t, sanTruncate s = t ++ '.' :: e' ∧ t ≠ [] ∧ lastOKB t = true ∧
      t.length ≤ max 1 (MAX_FILENAME_BYTES - (e'.length + 1)) ∧
      Fixed (t ++ '.' :: e') := by
  have hasc_e : ∀ c ∈ ('.' :: e'), c.toNat < 128 := fun c hc => isSafeChar_lt128 (heall c hc)
  have hextlen : (utf8Encode ('.' :: e')).length = e'.length + 1 := by
    rw [utf8Encode_length_ascii hasc_e]
    rfl
  have havail1 : 1 ≤ max 1 (MAX_FILENAME_BYTES - (e'.length + 1)) := le_max_left 1 _
  have hstemheadOK : ∀ c, stem.head? = some c → isStripChar c = false := by
    intro c hc
    rw [hstemhead] at hc
    exact (headOKB_iff s).mp hheadOK c hc
  obtain ⟨htne, hthead, htlen, tail, htail⟩ :=
    rstrip_take_spec (max 1 (MAX_FILENAME_BYTES - (e'.length + 1))) havail1 hstemne hstemheadOK
  have hasc_stem : ∀ c ∈ stem, c.toNat < 128 := fun c hc => isSafeChar_lt128 (hstemall c hc)
  have hasc_take : ∀ c ∈ stem.take (max 1 (MAX_FILENAME_BYTES - (e'.length + 1))),
      c.toNat < 128 := fun c hc => hasc_stem c (List.mem_of_mem_take hc)
  have hbytes : utf8DecodeIgnore
      ((utf8Encode stem).take (max 1 (MAX_FILENAME_BYTES - (e'.length + 1)))) =
      stem.take (max 1 (MAX_FILENAME_BYTES - (e'.length + 1))) := by
    rw [utf8Encode_ascii hasc_stem, ← List.map_take,
      ← utf8Encode_ascii hasc_take]
    exact utf8DecodeIgnore_encode_ascii hasc_take
  have htsub : ∀ c ∈ rstripChars (stem.take (max 1 (MAX_FILENAME_BYTES - (e'.length + 1)))),
      c ∈ stem := by
    intro c hc
    have hm : c ∈ stem.take (max 1 (MAX_FILENAME_BYTES - (e'.length + 1))) := by
      rw [htail]
      exact List.mem_append_left tail hc
    exact List.mem_of_mem_take hm
  have htheadOK : ∀ c,
      (rstripChars (stem.take (max 1 (MAX_FILENAME_BYTES - (e'.length + 1))))).head? = some c →
      isStripChar c = false := by
    intro c hc
    rw [hthead] at hc
    exact hstemheadOK c hc
  refine ⟨rstripChars (stem.take (max 1 (MAX_FILENAME_BYTES - (e'.length + 1)))),
    ?_, htne, lastOKB_rstrip _, htlen, ?_⟩
  · simp only [sanTruncate, h1, h2, hextlen, hbytes]
    rw [if_neg htne]
  · refine fixed_append_ext htne (fun c hc => hstemall c (htsub c hc)) ?_ ?_
      htheadOK (lastOKB_rstrip _) heall heDD heUD helast
    · exact noAdjB_rstrip _ _ (noAdjB_take _ _ _ hstemDD)
    · exact noAdjB_rstrip _ _ (noAdjB_take _ _ _ hstemUD)

theorem sanTruncate_spec {s : Str} (hf : Fixed s) :
    ∃ t e', sanTruncate s = t ++ '.' :: e' ∧
      ('.' :: e' = if (splitext s).2 = [] then (".pdf").toList else (splitext s).2) ∧
      '.' ∉ e' ∧ t ≠ [] ∧ lastOKB t = true ∧
      t.length ≤ max 1 (MAX_FILENAME_BYTES - (e'.length + 1)) ∧
      Fixed (t ++ '.' :: e') := by
  obtain ⟨hne, hall, hDD, hUD, hHead, hLast⟩ := hf
  rcases splitext_ext_struct s with hx | ⟨e'0, hx, hdot0⟩
  · -- no extension: stem is the whole name and the extension defaults to .pdf
    have h1 : (splitext s).1 = s := by
      have := splitext_append s
      rwa [hx, List.append_nil] at this
    have h2 : (if (splitext s).2 = [] then (".pdf").toList else (splitext s).2)
        = '.' :: ("pdf").toList := by
      rw [hx, if_pos rfl]
      decide
    obtain ⟨t, ht⟩ := sanTruncate_assemble h1 h2 hHead hne rfl
      (fun c hc => List.all_eq_true.mp hall c hc) hDD hUD
      (by decide) (by decide) (by decide) (by decide)
    exact ⟨t, ("pdf").toList, ht.1, h2.symm, by decide, ht.2.1, ht.2.2.1, ht.2.2.2.1, ht.2.2.2.2⟩
  · -- an extension present in the sanitized name
    have h2 : (if (splitext s).2 = [] then (".pdf").toList else (splitext s).2)
        = '.' :: e'0 := by
      rw [hx, if_neg (by simp)]
    have hsplit : (splitext s).1 ++ '.' :: e'0 = s := by
      have := splitext_append s
      rwa [hx] at this
    obtain ⟨hstemne, hstemhead⟩ :=
      splitext_stem_head (show (splitext s).2 ≠ [] from by rw [hx]; simp)
    have hstemall : ∀ c ∈ (splitext s).1, isSafeChar c = true := by
      intro c hc
      refine List.all_eq_true.mp hall c ?_
      rw [← hsplit]
      exact List.mem_append_left _ hc
    have heall : ∀ c ∈ ('.' :: e'0), isSafeChar c = true := by
      intro c hc
      refine List.all_eq_true.mp hall c ?_
      rw [← hsplit]
      exact List.mem_append_right _ hc
    have hDDs : noDDB (splitext s).1 = true := by
      refine noAdjB_append_left _ _ ('.' :: e'0) ?_
      rw [hsplit]; exact hDD
    have hUDs : noUDB (splitext s).1 = true := by
      refine noAdjB_append_left _ _ ('.' :: e'0) ?_
      rw [hsplit]; exact hUD
    have heDD : noDDB ('.' :: e'0) = true := by
      refine noAdjB_append_right _ (splitext s).1 _ ?_
      rw [hsplit]; exact hDD
    have heUD : noUDB ('.' :: e'0) = true := by
      refine noAdjB_append_right _ (splitext s).1 _ ?_
      rw [hsplit]; exact hUD
    have helast : lastOKB ('.' :: e'0) = true := by
      rw [lastOKB_iff]
      intro c hc
      refine (lastOKB_iff s).mp hLast c ?_
      rw [← hsplit, List.getLast?_append_of_ne_nil _ (by simp)]
      exact hc
    obtain ⟨t, ht⟩ := sanTruncate_assemble rfl h2 hHead hstemne hstemhead
      hstemall hDDs hUDs heall heDD heUD helast
    exact ⟨t, e'0, ht.1, h2.symm, hdot0, ht.2.1, ht.2.2.1, ht.2.2.2.1, ht.2.2.2.2⟩

theorem sanBase_of_fixed {y : Str} (hf : Fixed y) : sanBase y = y := by
  obtain ⟨hne, hall, hDD, hUD, hHead, hLast⟩ := hf
  have h1 : sanitizeTranslation y = y :=
    sanitizeTranslation_of_safe (fun c hc => List.all_eq_true.mp hall c hc)
  have h2 : collapseUnderscores y = y := collapse_of_noDD hDD
  have h3 : stripUnderscoreBeforeDot y = y := sUBD_of_noUD hUD
  have h4 : stripChars y = y := stripChars_of_OK hHead hLast
  simp only [sanBase, h1, h2, h3, h4]
  rw [if_neg hne]

/-- Shared output characterization of `sanitize_filename`: the output always
satisfies the `Fixed` invariant, and either it is the pre-truncation name
(within the byte budget) or it has the truncated `stem ++ extension` shape. -/
theorem sanitize_filename_spec (x : Str) :
    Fixed (sanitize_filename x) ∧
      ((utf8Encode (sanBase x)).length ≤ MAX_FILENAME_BYTES ∧ sanitize_filename x = sanBase x ∨
       ∃ t e', sanitize_filename x = t ++ '.' :: e' ∧ '.' ∉ e' ∧ t ≠ [] ∧ lastOKB t = true ∧
         ('.' :: e' =
           if (splitext (sanBase x)).2 = [] then (".pdf").toList else (splitext (sanBase x)).2) ∧
         t.length ≤ max 1 (MAX_FILENAME_BYTES - (e'.length + 1))) := by
  have hb := fixed_sanBase x
  rw [sanitize_filename_eq]
  by_cases h : (utf8Encode (sanBase x)).length ≤ MAX_FILENAME_BYTES
  · rw [if_pos h]
    exact ⟨hb, Or.inl ⟨h, rfl⟩⟩
  · rw [if_neg h]
    obtain ⟨t, e', heq, hif, hdot, htne, htlast, htlen, hfx⟩ := sanTruncate_spec hb
    exact ⟨heq ▸ hfx, Or.inr ⟨t, e', heq, hdot, htne, htlast, hif, htlen⟩⟩

theorem sanTruncate_of_shape {y t e' : Str} (hfix : Fixed y)
    (heq : y = t ++ '.' :: e') (hdot : '.' ∉ e') (htne : t ≠ [])
    (htlast : lastOKB t = true)
    (htlen : t.length ≤ max 1 (MAX_FILENAME_BYTES - (e'.length + 1))) :
    sanTruncate y = y := by
  obtain ⟨c0, t', rfl⟩ : ∃ c0 t', t = c0 :: t' := by
    cases t with
    | nil => exact absurd rfl htne
    | cons a as => exact ⟨a, as, rfl⟩
  have hc0strip : isStripChar c0 = false := by
    refine (headOKB_iff y).mp hfix.2.2.2.2.1 c0 ?_
    rw [heq]
    rfl
  have hc0dot : ¬c0 = '.' := by
    intro h
    rw [h] at hc0strip
    exact absurd hc0strip (by decide)
  have hsp : splitext y = (c0 :: t', '.' :: e') := by
    rw [heq]
    exact splitext_of_append (c0 :: t') e' hdot c0 (List.mem_cons_self c0 t') hc0dot
  have hyasc : ∀ c ∈ y, c.toNat < 128 := fixed_ascii hfix.2.1
  have htasc : ∀ c ∈ (c0 :: t'), c.toNat < 128 := by
    intro c hc
    refine hyasc c ?_
    rw [heq]
    exact List.mem_append_left _ hc
  have heasc : ∀ c ∈ ('.' :: e'), c.toNat < 128 := by
    intro c hc
    refine hyasc c ?_
    rw [heq]
    exact List.mem_append_right _ hc
  have hextlen : (utf8Encode ('.' :: e')).length = e'.length + 1 := by
    rw [utf8Encode_length_ascii heasc]
    rfl
  have htake : (utf8Encode (c0 :: t')).take (max 1 (MAX_FILENAME_BYTES - (e'.length + 1))) =
      utf8Encode (c0 :: t') := by
    refine List.take_of_length_le ?_
    rw [utf8Encode_length_ascii htasc]
    exact htlen
  simp only [sanTruncate, hsp]
  have he : (if '.' :: e' = [] then (".pdf").toList else '.' :: e') = '.' :: e' := by simp
  rw [he, hextlen, htake, utf8DecodeIgnore_encode_ascii htasc, rstrip_of_lastOK htlast]
  rw [if_neg htne]
  exact heq.symm

/-! ### Claims C1, C2, C3 about the sanitizer -/

/-- C3: `sanitize_filename` is idempotent: for every input string `x`,
`sanitize_filename (sanitize_filename x) = sanitize_filename x`, so every
output of `sanitize_filename` is a fixed point of the function. -/
theorem C3_sanitize_filename_idempotent (x : Str) :
    sanitize_filename (sanitize_filename x) = sanitize_filename x := by
  obtain ⟨hfix, hcase⟩ := sanitize_filename_spec x
  have hbase : sanBase (sanitize_filename x) = sanitize_filename x := sanBase_of_fixed hfix
  rw [sanitize_filename_eq (sanitize_filename x), hbase]
  by_cases hlen : (utf8Encode (sanitize_filename x)).length ≤ MAX_FILENAME_BYTES
  · rw [if_pos hlen]
  · rw [if_neg hlen]
    rcases hcase with ⟨hshort, hy⟩ | ⟨t, e', heq, hdot, htne, htlast, hif, htlen⟩
    · rw [hy] at hlen
      exact absurd hshort hlen
    · exact sanTruncate_of_shape hfix heq hdot htne htlast htlen

theorem sanitize_directory_name_spec (x : Str) :
    sanitize_directory_name x ≠ [] ∧
      (∀ c ∈ sanitize_directory_name x, isSafeChar c = true) ∧
      headOKB (sanitize_directory_name x) = true ∧
      lastOKB (sanitize_directory_name x) = true := by
  by_cases h : stripChars (sanitizeTranslation x) = []
  · simp only [sanitize_directory_name, h, if_pos]
    decide
  · simp only [sanitize_directory_name, if_neg h]
    refine ⟨h, ?_, headOKB_stripChars _, lastOKB_stripChars _⟩
    intro c hc
    exact sanitizeTranslation_safe x c (stripChars_subset _ c hc)

/-- C2: for every input string `x`, `sanitize_filename x` and
`sanitize_directory_name x` are non-empty strings whose characters all lie
in `[A-Za-z0-9._-]`; `sanitize_filename x` contains no uncollapsed run of
repeated underscores; and neither output starts or ends with `'.'`, `'_'`
or a space character. -/
theorem C2_sanitizer_outputs (x : Str) :
    sanitize_filename x ≠ [] ∧
      (∀ c ∈ sanitize_filename x, isSafeChar c = true) ∧
      noDDB (sanitize_filename x) = true ∧
      headOKB (sanitize_filename x) = true ∧
      lastOKB (sanitize_filename x) = true ∧
      sanitize_directory_name x ≠ [] ∧
      (∀ c ∈ sanitize_directory_name x, isSafeChar c = true) ∧
      headOKB (sanitize_directory_name x) = true ∧
      lastOKB (sanitize_directory_name x) = true := by
  obtain ⟨⟨hne, hall, hDD, -, hHead, hLast⟩, -⟩ := sanitize_filename_spec x
  obtain ⟨h1, h2, h3, h4⟩ := sanitize_directory_name_spec x
  exact ⟨hne, fun c hc => List.all_eq_true.mp hall c hc, hDD, hHead, hLast, h1, h2, h3, h4⟩

/-- C1 (counterexample): the input `"a." ++ 250 × 'b'` is already sanitized,
has a 251-byte extension, and `sanitize_filename` returns it essentially
unchanged at 252 UTF-8 bytes, exceeding the claimed 200-byte bound. -/
theorem C1_counterexample :
    ¬ (utf8Encode (sanitize_filename ('a' :: '.' :: List.replicate 250 'b'))).length ≤ 200 := by
  decide

/-- C1 (amended): for every input string `x` whose sanitized pre-truncation
form has an extension (defaulting to `.pdf`) of at most 199 UTF-8 bytes,
the UTF-8 encoding of `sanitize_filename x` is at most 200 bytes: when the
pre-truncation result exceeds 200 bytes, the stem's byte representation is
truncated so that stem plus extension fit within the limit. -/
theorem C1_length_bound (x : Str)
    (h : (utf8Encode (sanitizedExtension x)).length ≤ 199) :
    (utf8Encode (sanitize_filename x)).length ≤ 200 := by
  obtain ⟨hfix, hcase⟩ := sanitize_filename_spec x
  rcases hcase with ⟨hshort, hy⟩ | ⟨t, e', heq, hdot, htne, htlast, hif, htlen⟩
  · rw [hy]
    exact hshort
  · have hasc : ∀ c ∈ sanitize_filename x, c.toNat < 128 := fixed_ascii hfix.2.1
    have hlen : (utf8Encode (sanitize_filename x)).length = t.length + (e'.length + 1) := by
      rw [utf8Encode_length_ascii hasc, heq, List.length_append, List.length_cons]
    have hextasc : ∀ c ∈ ('.' :: e'), c.toNat < 128 := by
      intro c hc
      refine hasc c ?_
      rw [heq]
      exact List.mem_append_right _ hc
    have h199 : e'.length + 1 ≤ 199 := by
      have hx : sanitizedExtension x = '.' :: e' := by
        rw [sanitizedExtension]
        exact hif.symm
      rw [hx, utf8Encode_length_ascii hextasc, List.length_cons] at h
      omega
    have hmax : max 1 (MAX_FILENAME_BYTES - (e'.length + 1)) =
        MAX_FILENAME_BYTES - (e'.length + 1) := by
      refine Nat.max_eq_right ?_
      simp only [MAX_FILENAME_BYTES]
      omega
    rw [hmax] at htlen
    simp only [MAX_FILENAME_BYTES] at htlen
    omega

/-- C1 (witness): a concrete input satisfying the extension hypothesis, for
which the bound holds. -/
theorem C1_length_bound_witness :
    (utf8Encode (sanitizedExtension (("a.pdf").toList))).length ≤ 199 ∧
      (utf8Encode (sanitize_filename (("a.pdf").toList))).length ≤ 200 :=
  ⟨by decide, C1_length_bound (("a.pdf").toList) (by decide)⟩

/-! ### Record model (`models.py`) -/

/-- The `Report` dataclass from `models.py`.  Optional text fields are
`Option Str`; `is_active` is the tri-state boolean. -/
structure Report where
  serial : Int
  title : Str
  date_text : Str
  download_url : Str
  year_code : Option Str
  year_label : Option Str
  report_code : Option Str
  type_code : Option Str
  is_active : Option Bool
deriving DecidableEq

/-- Python `f"{n:04d}"`: decimal digits padded with zeros to a total width
of 4; for a negative number the sign occupies one position of the width. -/
def format04d (n : Int) : Str :=
  let digits := Nat.toDigits 10 n.natAbs
  if n < 0 then '-' :: (List.replicate (3 - digits.length) '0' ++ digits)
  else List.replicate (4 - digits.length) '0' ++ digits

/-- `Report.target_path` from `models.py`: the destination path (modelled as
the list of path components) for saving the report.  The year-label
subdirectory is appended only when `year_label` is truthy (present and
non-empty, Python `if self.year_label:`). -/
def Report.target_path (r : Report) (base_dir : List Str) : List Str :=
  let directory :=
    match r.year_label with
    | some lbl => if lbl = [] then base_dir else base_dir ++ [sanitize_directory_name lbl]
    | none => base_dir
  let filename := sanitize_filename (format04d r.serial ++ '_' :: (r.title ++ (".pdf").toList))
  directory ++ [filename]

/-- The target-path formula as the specification words it: `base_dir`, then
a sanitized year-label subdirectory exactly when the year label is present
(non-empty), then the sanitized combination of the zero-padded 4-digit
serial, an underscore, the title and the fixed `.pdf` suffix. -/
def target_path_formula (r : Report) (base_dir : List Str) : List Str :=
  (match r.year_label with
   | some lbl =>
     if lbl = [] then base_dir else base_dir ++ [sanitize_directory_name lbl]
   | none => base_dir) ++
    [sanitize_filename (format04d r.serial ++ '_' :: (r.title ++ (".pdf").toList))]

/-- C9: for every `Report` and base directory, `target_path` equals the
specification's formula (sanitized year-label subdirectory when the label
is present, none otherwise, then the sanitized
`{serial:04d}_{title}.pdf` filename); the function is pure.  The second
conjunct checks the specification's concrete example: serial 3, title
`"Report with / invalid : chars"`, year label `"2010-2011"` lands in parent
directory `"2010-2011"` with filename `"0003_Report_with_invalid_chars.pdf"`. -/
theorem C9_target_path :
    (∀ (r : Report) (base_dir : List Str),
      r.target_path base_dir = target_path_formula r base_dir) ∧
    Report.target_path
        ⟨3, ("Report with / invalid : chars").toList, ("March 03, 2021").toList,
          ("/file.pdf").toList, some (("y2").toList), some (("2010-2011").toList),
          none, none, none⟩ []
      = [("2010-2011").toList, ("0003_Report_with_invalid_chars.pdf").toList] := by
  constructor
  · intro r base_dir
    rfl
  · decide

theorem isSafeChar_no_sep {c : Char} (h : isSafeChar c = true) :
    ¬c = '/' ∧ ¬c = '\\' := by
  refine ⟨fun hc => ?_, fun hc => ?_⟩ <;> rw [hc] at h <;> exact absurd h (by decide)

theorem ne_dots_of_headOK {l : Str} (h : headOKB l = true) :
    l ≠ ['.'] ∧ l ≠ ['.', '.'] := by
  refine ⟨fun hl => ?_, fun hl => ?_⟩ <;> rw [hl] at h <;> exact absurd h (by decide)

/-- C10: every target path stays strictly inside the base directory: it is
`base_dir` extended by a non-empty list of components, each of which is
non-empty, contains no path separator (`'/'` or `'\'`), and is neither `"."`
nor `".."`.  No title or year label can make the target escape the output
root. -/
theorem C10_target_path_inside_base (r : Report) (base_dir : List Str) :
    ∃ rest, rest ≠ [] ∧ r.target_path base_dir = base_dir ++ rest ∧
      ∀ comp ∈ rest, comp ≠ [] ∧ (∀ c ∈ comp, ¬c = '/' ∧ ¬c = '\\') ∧
        comp ≠ ['.'] ∧ comp ≠ ['.', '.'] := by
  obtain ⟨⟨hfne, hfall, -, -, hfhead, -⟩, -⟩ :=
    sanitize_filename_spec (format04d r.serial ++ '_' :: (r.title ++ (".pdf").toList))
  have hfcomp : sanitize_filename (format04d r.serial ++ '_' :: (r.title ++ (".pdf").toList)) ≠ [] ∧
      (∀ c ∈ sanitize_filename (format04d r.serial ++ '_' :: (r.title ++ (".pdf").toList)),
        ¬c = '/' ∧ ¬c = '\\') ∧
      sanitize_filename (format04d r.serial ++ '_' :: (r.title ++ (".pdf").toList)) ≠ ['.'] ∧
      sanitize_filename (format04d r.serial ++ '_' :: (r.title ++ (".pdf").toList)) ≠ ['.', '.'] := by
    refine ⟨hfne, ?_, (ne_dots_of_headOK hfhead).1, (ne_dots_of_headOK hfhead).2⟩
    intro c hc
    exact isSafeChar_no_sep (List.all_eq_true.mp hfall c hc)
  cases hyl : r.year_label with
  | none =>
    refine ⟨[sanitize_filename (format04d r.serial ++ '_' :: (r.title ++ (".pdf").toList))],
      by simp, ?_, ?_⟩
    · simp only [Report.target_path, hyl]
    · intro comp hc
      rw [List.mem_singleton] at hc
      subst hc
      exact ⟨hfcomp.1, hfcomp.2.1, hfcomp.2.2.1, hfcomp.2.2.2⟩
  | some lbl =>
    by_cases hl : lbl = []
    · refine ⟨[sanitize_filename (format04d r.serial ++ '_' :: (r.title ++ (".pdf").toList))],
        by simp, ?_, ?_⟩
      · simp only [Report.target_path, hyl, if_pos hl]
      · intro comp hc
        rw [List.mem_singleton] at hc
        subst hc
        exact ⟨hfcomp.1, hfcomp.2.1, hfcomp.2.2.1, hfcomp.2.2.2⟩
    · obtain ⟨hdne, hdall, hdhead, -⟩ := sanitize_directory_name_spec lbl
      refine ⟨[sanitize_directory_name lbl,
        sanitize_filename (format04d r.serial ++ '_' :: (r.title ++ (".pdf").toList))],
        by simp, ?_, ?_⟩
      · simp only [Report.target_path, hyl, if_neg hl]
        rw [List.append_assoc]
        rfl
      · intro comp hc
        rcases List.mem_cons.mp hc with hc | hc
        · subst hc
          refine ⟨hdne, ?_, (ne_dots_of_headOK hdhead).1, (ne_dots_of_headOK hdhead).2⟩
          intro c hcc
          exact isSafeChar_no_sep (hdall c hcc)
        · rw [List.mem_singleton] at hc
          subst hc
          exact ⟨hfcomp.1, hfcomp.2.1, hfcomp.2.2.1, hfcomp.2.2.2⟩

/-! ### Listing parser (`parser.py`)

The HTML documents handled by `parse_reports` are modelled at the level of
the observations BeautifulSoup provides to the code: a document carries the
rows matched by the `#myTable tbody tr` selector and the option elements
matched by `#year option`; a cell carries its `get_text(strip=True)` text,
its `get_text(" ", strip=True)` text, and its descendant anchors in
document order, so that `find("a")` is the head of that list. -/

/-- Whitespace stripped by Python `str.strip()` (ASCII range). -/
def isPySpace (c : Char) : Bool :=
  c = ' ' || c = '\t' || c = '\n' || c = '\r' || c = '\x0b' || c = '\x0c'

/-- Python `str.strip()`: strip whitespace from both ends. -/
def pyStrip (s : Str) : Str :=
  ((s.dropWhile isPySpace).reverse.dropWhile isPySpace).reverse

def isDigitChar (c : Char) : Bool := '0' ≤ c && c ≤ '9'

def digitVal (c : Char) : Nat := c.toNat - 48

/-- Digit sequence accepted by Python `int(str)` after the first digit:
ASCII digits with single underscores allowed between digits. -/
def parsePyDigits : Nat → Str → Option Nat
  | acc, [] => some acc
  | acc, '_' :: c :: rest =>
    if isDigitChar c then parsePyDigits (acc * 10 + digitVal c) rest else none
  | acc, c :: rest =>
    if isDigitChar c then parsePyDigits (acc * 10 + digitVal c) rest else none

/-- Python `int(text)` on a `str`: optional surrounding whitespace, an
optional sign, then ASCII digits with single underscores between them;
`none` models `ValueError`.  (CPython also accepts non-ASCII decimal
digits; those are outside this model's alphabet.) -/
def pyIntOfStr (s : Str) : Option Int :=
  match pyStrip s with
  | '+' :: c :: rest =>
    if isDigitChar c then (parsePyDigits (digitVal c) rest).map Int.ofNat else none
  | '-' :: c :: rest =>
    if isDigitChar c then (parsePyDigits (digitVal c) rest).map (fun n => -(n : Int))
    else none
  | c :: rest =>
    if isDigitChar c then (parsePyDigits (digitVal c) rest).map Int.ofNat else none
  | [] => none

/-- Python `str.lower()` (exact on the ASCII range): map `A`-`Z` to
`a`-`z`. -/
def lowerChar (c : Char) : Char :=
  if 'A' ≤ c && c ≤ 'Z' then Char.ofNat (c.toNat + 32) else c

def strLower (s : Str) : Str := s.map lowerChar

/-- An `<a>` element: its `href` attribute, if present. -/
structure Anchor where
  href : Option Str
deriving DecidableEq

/-- A `<td>` cell, by the observations the parser makes of it. -/
structure Cell where
  textStrip : Str
  textSpace : Str
  anchors : List Anchor
deriving DecidableEq

/-- A `<tr>` table row. -/
structure Row where
  cells : List Cell
deriving DecidableEq

/-- An `<option>` element: its `value` attribute (if present) and its
visible text. -/
structure OptionTag where
  value : Option Str
  text : Str
deriving DecidableEq

/-- The listing document: the rows of `#myTable tbody tr` and the options
of `#year option`, in document order. -/
structure Document where
  tableRows : List Row
  yearOptions : List OptionTag
deriving DecidableEq

/-- `_safe_cell_text` from `parser.py`: `cells[index].get_text(strip=True)`
with the `IndexError` caught and `""` returned. -/
def safeCellText (cells : List Cell) (index : Nat) : Str :=
  match cells[index]? with
  | some c => c.textStrip
  | none => []

/-- `cells[3].find("a")` followed by `link_tag.get("href") if link_tag else
None`: the `href` of the first anchor, if any. -/
def firstAnchorHref (c : Cell) : Option Str :=
  match c.anchors.head? with
  | some a => a.href
  | none => none

/-- The loop body of `_extract_year_mapping`: skip an option with a falsy
(missing or empty) `value` or empty stripped text, otherwise
`mapping.setdefault(value.strip(), text)` — add the binding only when the
key is absent.  The dict is modelled as an association list queried with
`List.lookup`. -/
def yearMappingStep (mapping : List (Str × Str)) (opt : OptionTag) : List (Str × Str) :=
  match opt.value with
  | none => mapping
  | some v =>
    let text := pyStrip opt.text
    if v = [] then mapping
    else if text = [] then mapping
    else if (mapping.lookup (pyStrip v)).isSome then mapping
    else mapping ++ [(pyStrip v, text)]

/-- `_extract_year_mapping` from `parser.py`: fold the loop body over the
`#year option` elements, starting from the empty mapping. -/
def _extract_year_mapping (opts : List OptionTag) : List (Str × Str) :=
  opts.foldl yearMappingStep []

/-- `_parse_row` from `parser.py`: `None` when the row has fewer than 4
cells (the `len(cells) < 4` guard, here a pattern match), when the first
cell's text does not parse as an `int` (`ValueError` caught), or when the
first anchor of the fourth cell is missing or has a falsy `href`; otherwise
the extracted `Report`. -/
def _parse_row (tr : Row) (year_map : List (Str × Str)) : Option Report :=
  match tr.cells with
  | c0 :: c1 :: c2 :: c3 :: rest =>
    match pyIntOfStr c0.textStrip with
    | none => none
    | some serial =>
      let title := c1.textSpace
      let date_text := c2.textStrip
      match firstAnchorHref c3 with
      | none => none
      | some href =>
        if href = [] then none
        else
          let cells := c0 :: c1 :: c2 :: c3 :: rest
          let year_code := safeCellText cells 4
          let report_code := safeCellText cells 5
          let type_code := safeCellText cells 6
          let status_text := safeCellText cells 7
          let is_active : Option Bool :=
            if status_text = [] then none
            else
              let lowered := strLower status_text
              if lowered = ("true").toList then some true
              else if lowered = ("false").toList then some false
              else none
          some { serial := serial, title := title, date_text := date_text,
                 download_url := href,
                 year_code := if year_code = [] then none else some year_code,
                 year_label := if year_code = [] then none
                               else year_map.lookup (pyStrip year_code),
                 report_code := if report_code = [] then none else some report_code,
                 type_code := if type_code = [] then none else some type_code,
                 is_active := is_active }
  | _ => none

/-- `parse_reports` from `parser.py`: build the year mapping, then walk the
table rows in document order, appending each successfully parsed row. -/
def parse_reports (doc : Document) : List Report :=
  let year_map := _extract_year_mapping doc.yearOptions
  doc.tableRows.foldl (fun rows tr =>
    match _parse_row tr year_map with
    | some report => rows ++ [report]
    | none => rows) []

-- Sanity check mirroring `tests/test_parser.py::test_parse_reports`.
example :
    parse_reports
      ⟨[⟨[⟨("1").toList, ("1").toList, []⟩,
          ⟨("First Report Title").toList, ("First Report Title").toList, []⟩,
          ⟨("January 01, 2020").toList, ("January 01, 2020").toList, []⟩,
          ⟨("Download").toList, ("Download").toList,
            [⟨some (("/SiteImage/Policy/report-1.pdf").toList)⟩]⟩,
          ⟨("y2").toList, ("y2").toList, []⟩,
          ⟨("ar1").toList, ("ar1").toList, []⟩,
          ⟨("7").toList, ("7").toList, []⟩,
          ⟨("True").toList, ("True").toList, []⟩]⟩,
        ⟨[⟨("2").toList, ("2").toList, []⟩,
          ⟨("Second Report").toList, ("Second Report").toList, []⟩,
          ⟨("February 02, 2019").toList, ("February 02, 2019").toList, []⟩,
          ⟨("Download").toList, ("Download").toList,
            [⟨some (("/SiteImage/Policy/report-2.pdf").toList)⟩]⟩,
          ⟨("y1").toList, ("y1").toList, []⟩,
          ⟨("ar2").toList, ("ar2").toList, []⟩,
          ⟨("6").toList, ("6").toList, []⟩,
          ⟨("False").toList, ("False").toList, []⟩]⟩],
        [⟨some [], (" Select Year").toList⟩,
         ⟨some (("y1").toList), ("2009 downwards").toList⟩,
         ⟨some (("y2").toList), ("2010-2011").toList⟩]⟩ =
      [⟨1, ("First Report Title").toList, ("January 01, 2020").toList,
         ("/SiteImage/Policy/report-1.pdf").toList, some (("y2").toList),
         some (("2010-2011").toList), some (("ar1").toList), some (("7").toList),
         some true⟩,
       ⟨2, ("Second Report").toList, ("February 02, 2019").toList,
         ("/SiteImage/Policy/report-2.pdf").toList, some (("y1").toList),
         some (("2009 downwards").toList), some (("ar2").toList), some (("6").toList),
         some false⟩] := by
  decide

theorem foldl_append_filterMap {α β : Type} (f : α → Option β)
    (g : List β → α → List β)
    (hg : ∀ rows tr, g rows tr = match f tr with
      | some r => rows ++ [r]
      | none => rows)
    (l : List α) (acc : List β) :
    l.foldl g acc = acc ++ l.filterMap f := by
  induction l generalizing acc with
  | nil => simp
  | cons x xs ih =>
    rw [List.foldl_cons, List.filterMap_cons, hg acc x]
    cases hx : f x with
    | none =>
      simp only [hx]
      exact ih acc
    | some r =>
      simp only [hx]
      rw [ih]
      simp

/-- C4 (counterexample): a 4-cell row whose serial parses and whose fourth
cell does contain an anchor with a non-empty `href` — but only as the
second anchor — is still dropped, because the code looks only at
`cells[3].find("a")`, the first anchor. -/
theorem C4_counterexample :
    _parse_row
        (Row.mk [Cell.mk (("1").toList) (("1").toList) [],
          Cell.mk [] [] [], Cell.mk [] [] [],
          Cell.mk [] [] [Anchor.mk none, Anchor.mk (some (("x").toList))]]) [] = none ∧
      ¬((Row.mk [Cell.mk (("1").toList) (("1").toList) [],
          Cell.mk [] [] [], Cell.mk [] [] [],
          Cell.mk [] [] [Anchor.mk none, Anchor.mk (some (("x").toList))]]).cells.length < 4) ∧
      pyIntOfStr (safeCellText (Row.mk [Cell.mk (("1").toList) (("1").toList) [],
          Cell.mk [] [] [], Cell.mk [] [] [],
          Cell.mk [] [] [Anchor.mk none, Anchor.mk (some (("x").toList))]]).cells 0) ≠ none ∧
      (∃ c3, (Row.mk [Cell.mk (("1").toList) (("1").toList) [],
          Cell.mk [] [] [], Cell.mk [] [] [],
          Cell.mk [] [] [Anchor.mk none, Anchor.mk (some (("x").toList))]]).cells[3]? = some c3 ∧
        ∃ a ∈ c3.anchors, a.href ≠ none ∧ a.href ≠ some []) := by
  refine ⟨by decide, by decide, by decide, ?_⟩
  refine ⟨Cell.mk [] [] [Anchor.mk none, Anchor.mk (some (("x").toList))], by decide, ?_⟩
  exact ⟨Anchor.mk (some (("x").toList)), by decide, by decide, by decide⟩

/-- C4 (amended): `parse_reports` returns, in document order, the rows that
survive `_parse_row`; and a row yields no `Report` — silently, with no
partial record — exactly when it has fewer than 4 cells, or its first
cell's text is not parseable as an integer, or the *first* anchor of its
fourth cell is missing or has a missing/empty `href`.  (The code inspects
only `cells[3].find("a")`, so a valid anchor after an href-less first
anchor does not save the row.) -/
theorem C4_row_validity :
    (∀ doc : Document, parse_reports doc = doc.tableRows.filterMap
      (fun tr => _parse_row tr (_extract_year_mapping doc.yearOptions))) ∧
    (∀ (tr : Row) (ym : List (Str × Str)), _parse_row tr ym = none ↔
      (tr.cells.length < 4 ∨ pyIntOfStr (safeCellText tr.cells 0) = none ∨
        ∃ c3, tr.cells[3]? = some c3 ∧
          (firstAnchorHref c3 = none ∨ firstAnchorHref c3 = some []))) := by
  constructor
  · intro doc
    rw [parse_reports]
    refine (foldl_append_filterMap
      (fun tr => _parse_row tr (_extract_year_mapping doc.yearOptions)) _ ?_
      doc.tableRows []).trans (List.nil_append _)
    intro rows tr
    cases h : _parse_row tr (_extract_year_mapping doc.yearOptions) <;> simp only [h]
  · intro tr ym
    obtain ⟨cells⟩ := tr
    match cells with
    | [] => simp [_parse_row]
    | [c0] => simp [_parse_row]
    | [c0, c1] => simp [_parse_row]
    | [c0, c1, c2] => simp [_parse_row]
    | c0 :: c1 :: c2 :: c3 :: rest =>
      have hget3 : (c0 :: c1 :: c2 :: c3 :: rest)[3]? = some c3 := by simp
      have hsafe0 : safeCellText (c0 :: c1 :: c2 :: c3 :: rest) 0 = c0.textStrip := rfl
      cases hint : pyIntOfStr c0.textStrip with
      | none =>
        simp only [_parse_row, hint]
        constructor
        · intro _
          exact Or.inr (Or.inl (by rw [hsafe0]; exact hint))
        · intro _
          trivial
      | some serial =>
        cases hhref : firstAnchorHref c3 with
        | none =>
          simp only [_parse_row, hint, hhref]
          constructor
          · intro _
            exact Or.inr (Or.inr ⟨c3, hget3, Or.inl hhref⟩)
          · intro _
            trivial
        | some href =>
          by_cases hempty : href = []
          · simp only [_parse_row, hint, hhref, if_pos hempty]
            constructor
            · intro _
              exact Or.inr (Or.inr ⟨c3, hget3, Or.inr (hempty ▸ hhref)⟩)
            · intro _
              trivial
          · simp only [_parse_row, hint, hhref, if_neg hempty]
            constructor
            · intro h
              exact absurd h (by simp)
            · intro h
              rcases h with h | h | ⟨c3', hc3', h⟩
              · simp only [List.length_cons] at h
                omega
              · rw [hsafe0] at h
                rw [h] at hint
                exact absurd hint (by simp)
              · rw [hget3] at hc3'
                injection hc3' with hc3'
                subst hc3'
                rcases h with h | h
                · rw [hhref] at h
                  exact absurd h (by simp)
                · rw [hhref] at h
                  injection h with h
                  exact absurd h hempty

/-- An option element survives `_extract_year_mapping`'s skip test: its
`value` is present and non-empty and its stripped text is non-empty. -/
def optionValid (o : OptionTag) : Bool :=
  match o.value with
  | none => false
  | some v => if v = [] then false else if pyStrip o.text = [] then false else true

/-- The mapping key an option contributes: its stripped `value`. -/
def optionKey (o : OptionTag) : Str :=
  match o.value with
  | some v => pyStrip v
  | none => []

theorem lookup_append {α β : Type} [BEq α] (k : α) (l1 l2 : List (α × β)) :
    List.lookup k (l1 ++ l2) = match List.lookup k l1 with
      | some v => some v
      | none => List.lookup k l2 := by
  induction l1 with
  | nil => simp [List.lookup]
  | cons p l ih =>
    obtain ⟨a, b⟩ := p
    rw [List.cons_append, List.lookup, List.lookup]
    cases h : k == a with
    | true => simp [h]
    | false =>
      simp only [h]
      exact ih

theorem yearMapping_lookup_aux (opts : List OptionTag) (m : List (Str × Str)) (k : Str) :
    List.lookup k (opts.foldl yearMappingStep m) =
      match List.lookup k m with
      | some v => some v
      | none => ((opts.filter optionValid).find? (fun o => optionKey o = k)).map
          (fun o => pyStrip o.text) := by
  induction opts generalizing m with
  | nil =>
    rw [List.foldl_nil]
    cases h : List.lookup k m with
    | some u => simp [h]
    | none => simp [h]
  | cons o opts ih =>
    rw [List.foldl_cons]
    obtain ⟨val, txt⟩ := o
    cases val with
    | none =>
      have hstep : yearMappingStep m ⟨none, txt⟩ = m := rfl
      have hvalid : optionValid ⟨none, txt⟩ = false := rfl
      rw [hstep, List.filter_cons, hvalid]
      simp only [Bool.false_eq_true, if_false]
      exact ih m
    | some v =>
      by_cases hv : v = []
      · have hstep : yearMappingStep m ⟨some v, txt⟩ = m := by
          simp [yearMappingStep, hv]
        have hvalid : optionValid ⟨some v, txt⟩ = false := by
          simp [optionValid, hv]
        rw [hstep, List.filter_cons, hvalid]
        simp only [Bool.false_eq_true, if_false]
        exact ih m
      · by_cases ht : pyStrip txt = []
        · have hstep : yearMappingStep m ⟨some v, txt⟩ = m := by
            simp [yearMappingStep, hv, ht]
          have hvalid : optionValid ⟨some v, txt⟩ = false := by
            simp [optionValid, hv, ht]
          rw [hstep, List.filter_cons, hvalid]
          simp only [Bool.false_eq_true, if_false]
          exact ih m
        · have hvalid : optionValid ⟨some v, txt⟩ = true := by
            simp [optionValid, hv, ht]
          have hkey : optionKey ⟨some v, txt⟩ = pyStrip v := rfl
          rw [List.filter_cons, hvalid]
          simp only [if_true]
          by_cases hmem : (List.lookup (pyStrip v) m).isSome = true
          · have hstep : yearMappingStep m ⟨some v, txt⟩ = m := by
              simp [yearMappingStep, hv, ht, hmem]
            rw [hstep, ih]
            by_cases hk : pyStrip v = k
            · obtain ⟨u, hu⟩ := Option.isSome_iff_exists.mp hmem
              rw [hk] at hu
              rw [hu]
            · have hpred : (decide (optionKey ⟨some v, txt⟩ = k)) = false := by
                simp [hkey, hk]
              rw [List.find?_cons, hpred]
          · have hstep : yearMappingStep m ⟨some v, txt⟩
                = m ++ [(pyStrip v, pyStrip txt)] := by
              simp [yearMappingStep, hv, ht, hmem]
            rw [hstep, ih, lookup_append]
            cases hm : List.lookup k m with
            | some u => rfl
            | none =>
              by_cases hk : pyStrip v = k
              · have hbeq : (k == pyStrip v) = true := beq_iff_eq.mpr hk.symm
                have hl : List.lookup k [(pyStrip v, pyStrip txt)] = some (pyStrip txt) := by
                  rw [List.lookup, hbeq]
                have hpred : (decide (optionKey ⟨some v, txt⟩ = k)) = true := by
                  simp [hkey, hk]
                rw [hl, List.find?_cons, hpred]
                rfl
              · have hbeq : (k == pyStrip v) = false :=
                  beq_eq_false_iff_ne.mpr (fun hh => hk hh.symm)
                have hl : List.lookup k [(pyStrip v, pyStrip txt)] = none := by
                  rw [List.lookup, hbeq]
                  rfl
                have hpred : (decide (optionKey ⟨some v, txt⟩ = k)) = false := by
                  simp [hkey, hk]
                rw [hl, List.find?_cons, hpred]

/-- C5: the year-code-to-label mapping built by `_extract_year_mapping`
binds a code `k` to a label exactly by the first option whose value is
present and non-empty and whose visible (stripped) text is non-empty and
whose stripped value equals `k`: options with empty value or text are
skipped, and for a duplicated code the first occurrence's label wins. -/
theorem C5_year_mapping (opts : List OptionTag) (k : Str) :
    List.lookup k (_extract_year_mapping opts) =
      ((opts.filter optionValid).find? (fun o => optionKey o = k)).map
        (fun o => pyStrip o.text) := by
  rw [_extract_year_mapping, yearMapping_lookup_aux]
  rfl

/-! ### Filter engine (`scraper.py::filter_reports`) -/

/-- Is the first string a prefix of the second? -/
def isPrefixList : Str → Str → Bool
  | [], _ => true
  | _ :: _, [] => false
  | a :: as, b :: bs => a = b && isPrefixList as bs

/-- Python's `needle in hay` substring test. -/
def strContains (hay needle : Str) : Bool :=
  (List.range (hay.length + 1)).any (fun i => isPrefixList needle (hay.drop i))

/-- The loop body of `filter_reports`: skip the report when the year filter
is active and the lower-cased truthy values of `year_code`/`year_label` do
not meet the lower-cased requested tokens (Python's set-intersection test),
or when the query filter is active and the lower-cased query is not a
substring of the lower-cased title; otherwise append the report. -/
def filterStep (yearActive queryActive : Bool) (normalized : List Str) (lowered : Str)
    (filtered : List Report) (report : Report) : List Report :=
  let candidates := ([report.year_code, report.year_label].filterMap id).filter
    (fun v => !v.isEmpty)
  let normalizedValues := candidates.map strLower
  if yearActive && !(normalizedValues.any (fun v => normalized.contains v)) then filtered
  else if queryActive && !(strContains (strLower report.title) lowered) then filtered
  else filtered ++ [report]

/-- `filter_reports` from `scraper.py`: optional year and title filters.
`if years:` / `if query:` — a missing or empty argument leaves the
corresponding filter inactive. -/
def filter_reports (reports : List Report) (years : Option (List Str))
    (query : Option Str) : List Report :=
  let yearActive : Bool := match years with
    | some ys => !ys.isEmpty
    | none => false
  let queryActive : Bool := match query with
    | some q => !q.isEmpty
    | none => false
  let normalized := (years.getD []).map strLower
  let lowered := strLower (query.getD [])
  reports.foldl (filterStep yearActive queryActive normalized lowered) []

/-- A report passes the year filter: with no filter or an empty token list
every report passes; otherwise some truthy `year_code`/`year_label` value
matches a requested token case-insensitively. -/
def passes_year (years : Option (List Str)) (r : Report) : Bool :=
  match years with
  | none => true
  | some ys =>
    if ys.isEmpty then true
    else ((([r.year_code, r.year_label].filterMap id).filter (fun v => !v.isEmpty)).map
      strLower).any (fun v => (ys.map strLower).contains v)

/-- A report passes the query filter: with no filter or an empty query every
report passes; otherwise the query occurs case-insensitively in the title. -/
def passes_query (query : Option Str) (r : Report) : Bool :=
  match query with
  | none => true
  | some q =>
    if q.isEmpty then true
    else strContains (strLower r.title) (strLower q)

theorem foldl_step_filter {α : Type} (step : List α → α → List α) (p : α → Bool)
    (hstep : ∀ acc r, step acc r = if p r then acc ++ [r] else acc)
    (l : List α) (acc : List α) :
    l.foldl step acc = acc ++ l.filter p := by
  induction l generalizing acc with
  | nil => simp
  | cons x xs ih =>
    rw [List.foldl_cons, hstep, List.filter_cons]
    cases hx : p x with
    | true =>
      simp only [hx, if_true]
      rw [ih]
      simp
    | false =>
      simp only [hx, Bool.false_eq_true, if_false]
      exact ih acc

theorem filterStep_eq (years : Option (List Str)) (query : Option Str)
    (acc : List Report) (r : Report) :
    filterStep (match years with | some ys => !ys.isEmpty | none => false)
      (match query with | some q => !q.isEmpty | none => false)
      ((years.getD []).map strLower) (strLower (query.getD [])) acc r =
      if passes_year years r && passes_query query r then acc ++ [r] else acc := by
  cases years with
  | none =>
    cases query with
    | none =>
      simp only [filterStep, passes_year, passes_query, Option.getD]
      simp
    | some q =>
      cases hq : q.isEmpty with
      | true =>
        simp only [filterStep, passes_year, passes_query, Option.getD]
        simp only [hq]
        simp
      | false =>
        cases hs : strContains (strLower r.title) (strLower q) with
        | true =>
          simp only [filterStep, passes_year, passes_query, Option.getD]
          simp only [hq, hs]
          simp
        | false =>
          simp only [filterStep, passes_year, passes_query, Option.getD]
          simp only [hq, hs]
          simp
  | some ys =>
    cases hys : ys.isEmpty with
    | true =>
      cases query with
      | none =>
        simp only [filterStep, passes_year, passes_query, Option.getD]
        simp only [hys]
        simp
      | some q =>
        cases hq : q.isEmpty with
        | true =>
          simp only [filterStep, passes_year, passes_query, Option.getD]
          simp only [hys, hq]
          simp
        | false =>
          cases hs : strContains (strLower r.title) (strLower q) with
          | true =>
            simp only [filterStep, passes_year, passes_query, Option.getD]
            simp only [hys, hq, hs]
            simp
          | false =>
            simp only [filterStep, passes_year, passes_query, Option.getD]
            simp only [hys, hq, hs]
            simp
    | false =>
      cases ha : ((([r.year_code, r.year_label].filterMap id).filter
          (fun v => !v.isEmpty)).map strLower).any
          (fun v => (ys.map strLower).contains v) with
      | true =>
        cases query with
        | none =>
          simp only [filterStep, passes_year, passes_query, Option.getD]
          simp only [hys, ha]
          simp
        | some q =>
          cases hq : q.isEmpty with
          | true =>
            simp only [filterStep, passes_year, passes_query, Option.getD]
            simp only [hys, ha, hq]
            simp
          | false =>
            cases hs : strContains (strLower r.title) (strLower q) with
            | true =>
              simp only [filterStep, passes_year, passes_query, Option.getD]
              simp only [hys, ha, hq, hs]
              simp
            | false =>
              simp only [filterStep, passes_year, passes_query, Option.getD]
              simp only [hys, ha, hq, hs]
              simp
      | false =>
        cases query with
        | none =>
          simp only [filterStep, passes_year, passes_query, Option.getD]
          simp only [hys, ha]
          simp
        | some q =>
          cases hq : q.isEmpty with
          | true =>
            simp only [filterStep, passes_year, passes_query, Option.getD]
            simp only [hys, ha, hq]
            simp
          | false =>
            cases hs : strContains (strLower r.title) (strLower q) with
            | true =>
              simp only [filterStep, passes_year, passes_query, Option.getD]
              simp only [hys, ha, hq, hs]
              simp
            | false =>
              simp only [filterStep, passes_year, passes_query, Option.getD]
              simp only [hys, ha, hq, hs]
              simp

theorem strContains_nil (hay : Str) : strContains hay [] = true := by
  rw [strContains]
  refine List.any_eq_true.mpr ⟨0, ?_, rfl⟩
  exact List.mem_range.mpr (Nat.succ_pos _)

/-- C6 (counterexample): with requested year tokens `[""]` and a report
whose `year_code` is `Some ""`, the non-`None` value set `{""}` intersects
the token set `{""}` — the claim says the report passes — but
`filter(None, ...)` in the code also drops empty strings, so the report is
filtered out. -/
theorem C6_counterexample :
    filter_reports [⟨1, ("t").toList, [], ("u").toList, some [], none, none, none, none⟩]
        (some [([] : Str)]) none = [] ∧
      ([([] : Str)] : List Str) ≠ [] ∧
      (∃ v, v ∈ [(⟨1, ("t").toList, [], ("u").toList, some [], none, none, none, none⟩ :
            Report).year_code,
          (⟨1, ("t").toList, [], ("u").toList, some [], none, none, none, none⟩ :
            Report).year_label].filterMap id ∧
        strLower v ∈ ([([] : Str)]).map strLower) := by
  refine ⟨by decide, by decide, ⟨[], by decide, by decide⟩⟩

/-- C6 (amended): `filter_reports` is a stable filter: it returns the input
reports in their original relative order, keeping exactly those that pass
both filters combined by logical AND.  A year filter that is absent
(`None`) or empty passes every report; a present non-empty year filter
passes a report iff the case-insensitive set of its non-`None`, *non-empty*
`year_code`/`year_label` values intersects the case-insensitive requested
tokens.  An absent or empty query passes every report; otherwise a report
passes iff the query occurs case-insensitively as a substring of its
title. -/
theorem C6_filter_reports :
    (∀ (reports : List Report) (years : Option (List Str)) (query : Option Str),
      filter_reports reports years query =
        reports.filter (fun r => passes_year years r && passes_query query r)) ∧
    (∀ (ys : List Str) (r : Report), ys ≠ [] →
      (passes_year (some ys) r = true ↔
        ∃ v, v ∈ [r.year_code, r.year_label].filterMap id ∧ ¬v = [] ∧
          strLower v ∈ ys.map strLower)) ∧
    (∀ (q : Str) (r : Report),
      passes_query (some q) r = true ↔
        strContains (strLower r.title) (strLower q) = true) := by
  refine ⟨?_, ?_, ?_⟩
  · intro reports years query
    simp only [filter_reports]
    exact (foldl_step_filter _ _ (filterStep_eq years query) reports []).trans
      (List.nil_append _)
  · intro ys r hys
    have hysb : ys.isEmpty = false := by
      cases ys with
      | nil => exact absurd rfl hys
      | cons a as => rfl
    simp only [passes_year, hysb, Bool.false_eq_true, if_false]
    rw [List.any_eq_true]
    constructor
    · rintro ⟨v, hv, hc⟩
      obtain ⟨w, hw, rfl⟩ := List.mem_map.mp hv
      obtain ⟨hwmem, hwne⟩ := List.mem_filter.mp hw
      refine ⟨w, hwmem, ?_, ?_⟩
      · intro hweq
        rw [hweq] at hwne
        exact absurd hwne (by decide)
      · simpa using hc
    · rintro ⟨v, hv, hvne, hvmem⟩
      refine ⟨strLower v, ?_, ?_⟩
      · refine List.mem_map.mpr ⟨v, ?_, rfl⟩
        refine List.mem_filter.mpr ⟨hv, ?_⟩
        cases v with
        | nil => exact absurd rfl hvne
        | cons a as => rfl
      · simpa using hvmem
  · intro q r
    by_cases hq : q.isEmpty
    · have hqe : q = [] := by
        cases q with
        | nil => rfl
        | cons a as => exact absurd hq (by simp)
      subst hqe
      simp only [passes_query, List.isEmpty_nil, if_true]
      constructor
      · intro _
        exact strContains_nil _
      · intro _
        trivial
    · simp only [passes_query]
      rw [if_neg hq]

/-! ### Download engine (`scraper.py`) -/

abbrev FsPath := List Str

/-- The filesystem as the engine observes it: existing directories and a
map from file paths to byte contents. -/
structure FileSystem where
  dirs : List FsPath
  files : List (FsPath × List Nat)
deriving DecidableEq

/-- Observable side effects of the download engine: directory-ensure steps,
network fetches, and file-content writes. -/
inductive Effect where
  | ensureDir : FsPath → Effect
  | fetch : Str → Effect
  | fileWrite : FsPath → Effect
deriving DecidableEq

/-- `Path.mkdir(parents=True, exist_ok=True)`: add the directory and all
its ancestors, idempotently; file contents are untouched. -/
def mkdirParents (fs : FileSystem) (p : FsPath) : FileSystem :=
  { fs with dirs := fs.dirs ++
      (((List.range (p.length + 1)).map (fun i => p.take i)).filter
        (fun q => !(fs.dirs.contains q))) }

/-- `Path.exists()`: true for an existing file or directory. -/
def pathExists (fs : FileSystem) (p : FsPath) : Bool :=
  (fs.files.map Prod.fst).contains p || fs.dirs.contains p

/-- `target_path.open("wb")` plus the chunk loop of `_download_single`:
write the concatenation of the non-empty chunks (zero-length chunks are
skipped), replacing any previous content at that path. -/
def writeFile (fs : FileSystem) (p : FsPath) (content : List Nat) : FileSystem :=
  { fs with files := (p, content) :: fs.files.filter (fun q => !decide (q.1 = p)) }

/-- `BASE_URL` from `scraper.py`. -/
def BASE_URL : Str := ("https://agp.gov.pk").toList

/-- `urllib.parse.urljoin(BASE_URL, url)`, restricted to the URL shapes the
scraper passes it: an absolute URL (one with a scheme separator) is kept, a
root-relative path is appended to the origin, anything else is resolved
against the site root. -/
def urljoin (base rel : Str) : Str :=
  if strContains rel (("://").toList) = true then rel
  else
    match rel with
    | '/' :: _ => base ++ rel
    | _ => base ++ '/' :: rel

/-- `_download_single` from `scraper.py`, the filesystem explicit and the
HTTP collaborator abstracted as `fetch` (url to error-or-body-chunks):
compute the target path, ensure its parent directory, return the path
untouched when the file already exists and overwrite is off, otherwise
fetch the resolved URL and stream the body to the file.  The result pairs
the emitted effects with the `Except` outcome (`DownloadError` as
`Except.error`); the per-request `timeout` is transport detail. -/
def _download_single (report : Report) (output_dir : FsPath) (overwrite : Bool)
    (timeout : Nat) (fetch : Str → Except Str (List (List Nat)))
    (fs : FileSystem) : List Effect × Except Str (FsPath × FileSystem) :=
  let target_path := report.target_path output_dir
  let fs1 := mkdirParents fs target_path.dropLast
  if pathExists fs1 target_path && !overwrite then
    ([Effect.ensureDir target_path.dropLast], Except.ok (target_path, fs1))
  else
    let url := urljoin BASE_URL report.download_url
    match fetch url with
    | Except.error e =>
      ([Effect.ensureDir target_path.dropLast, Effect.fetch url],
        Except.error (("Failed to download ").toList ++ report.title ++
          (": ").toList ++ e))
    | Except.ok chunks =>
      ([Effect.ensureDir target_path.dropLast, Effect.fetch url,
          Effect.fileWrite target_path],
        Except.ok (target_path,
          writeFile fs1 target_path ((chunks.filter (fun c => !c.isEmpty)).flatten)))

/-- `download_reports` from `scraper.py`: ensure `output_dir` exists first;
in dry-run mode return the computed target path of every report, in input
order; in live mode submit one `_download_single` per report to the worker
pool and collect results in completion order — modelled by `order`, the
report indices in the order their futures complete — propagating the first
observed failure.  `max_workers` only bounds concurrency and does not
affect the sequentialised model. -/
def download_reports (reports : List Report) (output_dir : FsPath)
    (max_workers : Nat) (overwrite dry_run : Bool) (timeout : Nat)
    (fetch : Str → Except Str (List (List Nat))) (order : List Nat)
    (fs : FileSystem) : List Effect × Except Str (List FsPath × FileSystem) :=
  let fs0 := mkdirParents fs output_dir
  if dry_run then
    ([Effect.ensureDir output_dir],
      Except.ok (reports.map (fun r => r.target_path output_dir), fs0))
  else
    order.foldl (fun st i =>
      match st with
      | (effs, Except.error e) => (effs, Except.error e)
      | (effs, Except.ok (paths, fsCur)) =>
        match reports[i]? with
        | none => (effs, Except.ok (paths, fsCur))
        | some r =>
          let res := _download_single r output_dir overwrite timeout fetch fsCur
          match res.2 with
          | Except.error e => (effs ++ res.1, Except.error e)
          | Except.ok (p, fs') => (effs ++ res.1, Except.ok (paths ++ [p], fs')))
      ([Effect.ensureDir output_dir], Except.ok ([], fs0))

/-- C7: in dry-run mode, `download_reports` on N reports returns exactly N
paths — the computed target path of each report, in input order, with no
report skipped — performing no network fetch and no file-content write;
only the output-directory-ensure step runs (and only directories change on
the filesystem). -/
theorem C7_dry_run (reports : List Report) (output_dir : FsPath)
    (max_workers : Nat) (overwrite : Bool) (timeout : Nat)
    (fetch : Str → Except Str (List (List Nat))) (order : List Nat)
    (fs : FileSystem) :
    download_reports reports output_dir max_workers overwrite true timeout fetch order fs =
      ([Effect.ensureDir output_dir],
        Except.ok (reports.map (fun r => r.target_path output_dir),
          mkdirParents fs output_dir)) ∧
    (reports.map (fun r => r.target_path output_dir)).length = reports.length ∧
    (∀ i : Nat, (reports.map (fun r => r.target_path output_dir))[i]? =
      (reports[i]?).map (fun r => r.target_path output_dir)) ∧
    (∀ e ∈ [Effect.ensureDir output_dir], (∀ u, ¬e = Effect.fetch u) ∧
      (∀ p, ¬e = Effect.fileWrite p)) ∧
    (mkdirParents fs output_dir).files = fs.files := by
  refine ⟨rfl, by simp, ?_, ?_, rfl⟩
  · intro i
    simp
  · intro e he
    rw [List.mem_singleton] at he
    subst he
    exact ⟨fun u h => Effect.noConfusion h, fun p h => Effect.noConfusion h⟩

/-- C8: in live mode with overwrite not requested, a report whose target
file already exists at its computed path is not fetched and not written:
`_download_single` emits only the parent-directory-ensure effect, leaves
the filesystem's files unchanged, and returns the existing path. -/
theorem C8_skip_existing (report : Report) (output_dir : FsPath) (timeout : Nat)
    (fetch : Str → Except Str (List (List Nat))) (fs : FileSystem)
    (h : ((fs.files.map Prod.fst).contains (report.target_path output_dir)) = true) :
    (_download_single report output_dir false timeout fetch fs).2 =
        Except.ok (report.target_path output_dir,
          mkdirParents fs (report.target_path output_dir).dropLast) ∧
      (_download_single report output_dir false timeout fetch fs).1 =
        [Effect.ensureDir (report.target_path output_dir).dropLast] ∧
      (∀ e ∈ (_download_single report output_dir false timeout fetch fs).1,
        (∀ u, ¬e = Effect.fetch u) ∧ (∀ p, ¬e = Effect.fileWrite p)) ∧
      (mkdirParents fs (report.target_path output_dir).dropLast).files = fs.files := by
  have hfiles : (mkdirParents fs (report.target_path output_dir).dropLast).files
      = fs.files := rfl
  have hex : pathExists (mkdirParents fs (report.target_path output_dir).dropLast)
      (report.target_path output_dir) = true := by
    rw [pathExists, hfiles, h]
    rfl
  have hcond : (pathExists (mkdirParents fs (report.target_path output_dir).dropLast)
      (report.target_path output_dir) && !false) = true := by
    rw [hex]
    rfl
  simp only [_download_single, hcond, if_true]
  refine ⟨trivial, trivial, ?_, rfl⟩
  intro e he
  rw [List.mem_singleton] at he
  subst he
  exact ⟨fun u hh => Effect.noConfusion hh, fun p hh => Effect.noConfusion hh⟩

/-- C8 (witness): a concrete report and filesystem where the target file
already exists, on which the skip applies. -/
theorem C8_skip_existing_witness :
    ((FileSystem.mk []
        [(Report.target_path ⟨1, ("t").toList, [], ("u").toList, none, none, none,
          none, none⟩ [], [])]).files.map Prod.fst).contains
      (Report.target_path ⟨1, ("t").toList, [], ("u").toList, none, none, none,
        none, none⟩ []) = true ∧
    (_download_single ⟨1, ("t").toList, [], ("u").toList, none, none, none, none, none⟩
        [] false 60 (fun _ => Except.error [])
        (FileSystem.mk []
          [(Report.target_path ⟨1, ("t").toList, [], ("u").toList, none, none, none,
            none, none⟩ [], [])])).2 =
      Except.ok (Report.target_path ⟨1, ("t").toList, [], ("u").toList, none, none,
          none, none, none⟩ [],
        mkdirParents (FileSystem.mk []
          [(Report.target_path ⟨1, ("t").toList, [], ("u").toList, none, none, none,
            none, none⟩ [], [])])
          (Report.target_path ⟨1, ("t").toList, [], ("u").toList, none, none, none,
            none, none⟩ []).dropLast) :=
  ⟨by decide,
    (C8_skip_existing ⟨1, ("t").toList, [], ("u").toList, none, none, none, none, none⟩
      [] 60 (fun _ => Except.error [])
      (FileSystem.mk []
        [(Report.target_path ⟨1, ("t").toList, [], ("u").toList, none, none, none,
          none, none⟩ [], [])]) (by decide)).1⟩

/-- C6 (witness): the year-pass characterization instantiated at a concrete
non-empty filter and report. -/
theorem C6_filter_reports_witness :
    passes_year (some [("y2").toList])
        ⟨1, ("t").toList, [], ("u").toList, some (("y2").toList), none, none, none,
          none⟩ = true ↔
      ∃ v, v ∈ [some (("y2").toList), (none : Option Str)].filterMap id ∧ ¬v = [] ∧
        strLower v ∈ [("y2").toList].map strLower :=
  C6_filter_reports.2.1 [("y2").toList]
    ⟨1, ("t").toList, [], ("u").toList, some (("y2").toList), none, none, none, none⟩
    (by decide)
